import Mathlib

/-!
Verification of the traversal and ordering engine of the Integration-Agent
repository (`integration_agent/util/print.py`).

The embedding models Python dictionary values (`PyVal`), the networkx graph
store (`Graph`: node-attribute dictionaries plus an edge list in insertion
order), and the three relevant operations:

* `printDag` / `printDagLoop` — the forward depth-first printer `print_dag`;
* `revRec` / `revLoop` / `sourceLoop` / `printDagInReverse` — the reverse
  post-order traversal `print_dag_in_reverse` with its nested helper
  `_print_dag_recursive` and `get_node_label`;
* `generateCode` — `generate_code`, with the external LLM call abstracted as
  a function argument `llmInvoke : String → String`.

Python exceptions are modelled by `Except PyErr`; the host recursion limit is
modelled by a fuel argument whose exhaustion yields `PyErr.recursionError`,
mirroring CPython's `RecursionError`.  Each `print` call is recorded as one
entry of a `lines` list; the reverse traversal additionally records the
emission order of node ids in a trace field `order` (one entry exactly where
the source prints a node and marks it fully processed), and the forward
traversal records its entry order in `trace`.
-/

/-- A Python value as it occurs in node-attribute dictionaries of this
repository: strings, lists, and string-keyed dictionaries. -/

inductive PyVal where
  | str (s : String)
  | list (xs : List PyVal)
  | dict (entries : List (String × PyVal))

/-- Python exceptions that the embedded code can raise. -/

inductive PyErr where
  | attributeError (msg : String)
  | keyError (msg : String)
  | recursionError
deriving DecidableEq, Repr

mutual

/-- Python `repr` of a value (as used when a list or dict is interpolated
into an f-string). -/
def pyRepr : PyVal → String
  | PyVal.str s => "\x27" ++ s ++ "\x27"
  | PyVal.list xs => "[" ++ pyReprList xs ++ "]"
  | PyVal.dict es => "\x7b" ++ pyReprDict es ++ "\x7d"

/-- Comma-separated reprs of the elements of a Python list. -/
def pyReprList : List PyVal → String
  | [] => ""
  | [x] => pyRepr x
  | x :: xs => pyRepr x ++ ", " ++ pyReprList xs

/-- Comma-separated `key: value` reprs of the entries of a Python dict. -/
def pyReprDict : List (String × PyVal) → String
  | [] => ""
  | [(k, v)] => "\x27" ++ k ++ "\x27: " ++ pyRepr v
  | (k, v) :: es => "\x27" ++ k ++ "\x27: " ++ pyRepr v ++ ", " ++ pyReprDict es

end

/-- Python `str()` of a value, as used by f-string interpolation: a string
interpolates as itself, containers interpolate as their repr. -/

def pyStr : PyVal → String
  | PyVal.str s => s
  | v => pyRepr v

/-- Python truthiness of a value (`if input_variables:`): empty strings and
empty containers are falsy. -/

def pyTruthy : PyVal → Bool
  | PyVal.str s => !s.isEmpty
  | PyVal.list xs => !xs.isEmpty
  | PyVal.dict es => !es.isEmpty

/-- Python `len()` of a value. -/

def pyLen : PyVal → Nat
  | PyVal.str s => s.length
  | PyVal.list xs => xs.length
  | PyVal.dict es => es.length

/-- `d.get(key, default)` on an attribute dictionary (a real Python dict):
never raises. -/

def dictGet (d : List (String × PyVal)) (key : String) (dflt : PyVal) : PyVal :=
  match d.find? (fun e => e.1 == key) with
  | some e => e.2
  | none => dflt

/-- `v.get(key, default)` on an arbitrary value: succeeds on a dict, raises
`AttributeError` on a string or a list (neither has a `.get` method) — this
is what `node_attrs.get("content", "").get("key", "")` does when `content`
is absent and the default `""` is returned. -/

def pyGetAttr (v : PyVal) (key : String) (dflt : PyVal) : Except PyErr PyVal :=
  match v with
  | PyVal.dict es => Except.ok (dictGet es key dflt)
  | PyVal.str _ => Except.error (PyErr.attributeError "str object has no attribute get")
  | PyVal.list _ => Except.error (PyErr.attributeError "list object has no attribute get")

/-- Python `str.strip()` (here only ever applied to the LLM output). -/

def pyStrip (s : String) : String := s.trim

/-- The networkx `DiGraph` as this repository uses it: nodes with their
attribute dictionaries in insertion order, and the directed edges in
insertion order.  `successors` and `in_degree` are derived exactly as
networkx reports them (per-source successor order is edge insertion order). -/

structure Graph where
  nodes : List (String × List (String × PyVal))
  edges : List (String × String)

/-- `graph.nodes()`: the node ids in insertion order. -/

def Graph.nodeIds (g : Graph) : List String := g.nodes.map (fun e => e.1)

/-- `graph.nodes[id]`: the attribute dictionary of a node; raises `KeyError`
for an unknown id. -/

def Graph.nodeAttrs (g : Graph) (nodeId : String) : Except PyErr (List (String × PyVal)) :=
  match g.nodes.find? (fun e => e.1 == nodeId) with
  | some e => Except.ok e.2
  | none => Except.error (PyErr.keyError nodeId)

/-- `graph.successors(id)`: targets of the outgoing edges of `id`, in edge
insertion order. -/

def Graph.successors (g : Graph) (nodeId : String) : List String :=
  (g.edges.filter (fun e => e.1 == nodeId)).map (fun e => e.2)

/-- `graph.in_degree(id)`: the number of incoming edges of `id`. -/

def Graph.inDegree (g : Graph) (nodeId : String) : Nat :=
  (g.edges.filter (fun e => e.2 == nodeId)).length

/-- The source-node list computed by `print_dag_in_reverse`:
`[n for n in graph.nodes() if graph.in_degree(n) == 0]`. -/

def Graph.sources (g : Graph) : List String :=
  g.nodeIds.filter (fun n => g.inDegree n == 0)

/-- A well-formed graph store: every edge endpoint is a node (networkx
guarantees this, since `add_edge` inserts missing endpoints as nodes). -/

def Graph.WF (g : Graph) : Prop :=
  ∀ e ∈ g.edges, e.1 ∈ g.nodeIds ∧ e.2 ∈ g.nodeIds

/-- One directed edge step: `b` is a successor of `a`. -/

def Graph.edgeStep (g : Graph) (a b : String) : Prop := b ∈ g.successors a

/-- Reachability along directed edges (reflexive-transitive closure of
`edgeStep`). -/

def Graph.Reaches (g : Graph) (a b : String) : Prop :=
  Relation.ReflTransGen g.edgeStep a b

/-- Acyclicity: no edge closes a directed cycle. -/

def Graph.Acyclic (g : Graph) : Prop :=
  ∀ a b, g.edgeStep a b → ¬ g.Reaches b a

/-- `visited.add(x)` on a set modelled as a duplicate-free list. -/

def insertSet (x : String) (l : List String) : List String :=
  if x ∈ l then l else x :: l

/-- `visited.remove(x)` on a set modelled as a list. -/

def removeSet (x : String) (l : List String) : List String := l.erase x

/-- The guard `max_depth is not None and depth >= max_depth`. -/

def depthHit (maxDepth : Option Nat) (depth : Nat) : Bool :=
  match maxDepth with
  | some m => decide (m ≤ depth)
  | none => false

/-- The node-label block built inline by `print_dag` (lines 26–38 of
`print.py`): attribute lookups with empty defaults, the chained
`node_attrs.get("content", "").get("key", "")` (which raises when `content`
is missing), and the multi-line f-string label. -/

def forwardNodeLabel (g : Graph) (currentNodeId : String) (newPfx : String) :
    Except PyErr String :=
  match g.nodeAttrs currentNodeId with
  | Except.error e => Except.error e
  | Except.ok nodeAttrs =>
    let dynamicParts := dictGet nodeAttrs "dynamic_parts" (PyVal.list [])
    match pyGetAttr (dictGet nodeAttrs "content" (PyVal.str "")) "key" (PyVal.str "") with
    | Except.error e => Except.error e
    | Except.ok key =>
      let extractedParts := dictGet nodeAttrs "extracted_parts" (PyVal.list [])
      let inputVariables := dictGet nodeAttrs "input_variables" (PyVal.list [])
      let nodeType := dictGet nodeAttrs "node_type" (PyVal.str "")
      let base := "[" ++ pyStr nodeType ++ "] [node_id: " ++ currentNodeId ++ "]"
      let base := if pyTruthy inputVariables then
          base ++ "\n" ++ newPfx ++ "    [input_variables: " ++ pyStr inputVariables ++ "]"
        else base
      let base := base ++ "\n" ++ newPfx ++ "    [dynamic_parts: " ++ pyStr dynamicParts ++ "]"
      let base := base ++ "\n" ++ newPfx ++ "    [extracted_parts: " ++ pyStr extractedParts ++ "]"
      Except.ok (base ++ "\n" ++ newPfx ++ "    [" ++ pyStr key ++ "]")

/-- Result of one forward-traversal call: the printed lines, the visited set
after the call, and the order in which this call (and its recursion) entered
nodes for labeling/expansion. -/

structure FwdOut where
  lines : List String
  visited : List String
  trace : List String
deriving DecidableEq, Repr

/-- The `for i, child_id in enumerate(children)` loop of `print_dag`:
an already-visited child prints the `(Already visited)` line and is not
recursed into; an unvisited child is expanded by `step` (the recursive
call at one less fuel). -/

def printDagLoop (step : String → String → Bool → List String → Nat → Except PyErr FwdOut)
    (children : List String) (childCount i : Nat) (newPfx : String)
    (visited : List String) (depth : Nat) : Except PyErr FwdOut :=
  match children with
  | [] => Except.ok ⟨[], visited, []⟩
  | childId :: rest =>
    let isLastChild := i == childCount - 1
    if childId ∈ visited then
      match printDagLoop step rest childCount (i + 1) newPfx visited depth with
      | Except.error e => Except.error e
      | Except.ok r =>
        Except.ok ⟨(newPfx ++ (if isLastChild then "└── " else "├── ") ++
          "(Already visited) [node_id: " ++ childId ++ "]") :: r.lines, r.visited, r.trace⟩
    else
      match step childId newPfx isLastChild visited depth with
      | Except.error e => Except.error e
      | Except.ok r1 =>
        match printDagLoop step rest childCount (i + 1) newPfx r1.visited depth with
        | Except.error e => Except.error e
        | Except.ok r2 => Except.ok ⟨r1.lines ++ r2.lines, r2.visited, r1.trace ++ r2.trace⟩

/-- `print_dag` (lines 8–65): prints the label, adds the node to the shared
`visited` set, stops at the depth limit, otherwise expands the successor
list.  Fuel exhaustion models the host recursion limit. -/

def printDag (g : Graph) (maxDepth : Option Nat) :
    Nat → String → String → Bool → List String → Nat → Except PyErr FwdOut
  | 0, _, _, _, _, _ => Except.error PyErr.recursionError
  | fuel + 1, currentNodeId, pfx, isLast, visited, depth =>
    let connector := if isLast then "└── " else "├── "
    let newPfx := pfx ++ (if isLast then "    " else "│   ")
    match forwardNodeLabel g currentNodeId newPfx with
    | Except.error e => Except.error e
    | Except.ok nodeLabel =>
      let line := pfx ++ connector ++ nodeLabel
      let visited1 := insertSet currentNodeId visited
      if depthHit maxDepth depth then Except.ok ⟨[line], visited1, [currentNodeId]⟩
      else
        match printDagLoop (printDag g maxDepth fuel) (g.successors currentNodeId)
            (g.successors currentNodeId).length 0 newPfx visited1 (depth + 1) with
        | Except.error e => Except.error e
        | Except.ok r => Except.ok ⟨line :: r.lines, r.visited, currentNodeId :: r.trace⟩

/-- `get_node_label` (lines 217–235): single-line label with empty-string
defaults; the chained `content.get("key", "")` raises `AttributeError` when
the `content` attribute is missing. -/

def getNodeLabel (g : Graph) (nodeId : String) : Except PyErr String :=
  match g.nodeAttrs nodeId with
  | Except.error e => Except.error e
  | Except.ok nodeAttrs =>
    let dynamicParts := dictGet nodeAttrs "dynamic_parts" (PyVal.str "")
    let extractedParts := dictGet nodeAttrs "extracted_parts" (PyVal.str "")
    let content := dictGet nodeAttrs "content" (PyVal.str "")
    match pyGetAttr content "key" (PyVal.str "") with
    | Except.error e => Except.error e
    | Except.ok key =>
      let inputVariables := dictGet nodeAttrs "input_variables" (PyVal.str "")
      let nodeType := dictGet nodeAttrs "node_type" (PyVal.str "")
      Except.ok ("[" ++ pyStr nodeType ++ "] " ++ "[node_id: " ++ nodeId ++ "]" ++
        " [dynamic_parts: " ++ pyStr dynamicParts ++ "]" ++
        " [extracted_parts: " ++ pyStr extractedParts ++ "]" ++
        " [input_variables: " ++ pyStr inputVariables ++ "]" ++
        " [" ++ pyStr key ++ "]")

/-- `generate_code` (lines 95–152): builds the prompt from the node
attributes and invokes the LLM (abstracted as `llmInvoke`), stripping the
returned content.  Raises `AttributeError` via the chained `content.get`
calls when `content` is missing or not a dict. -/

def generateCode (g : Graph) (llmInvoke : String → String) (nodeId : String) :
    Except PyErr String :=
  match g.nodeAttrs nodeId with
  | Except.error e => Except.error e
  | Except.ok nodeAttrs =>
    let content := dictGet nodeAttrs "content" (PyVal.str "")
    match pyGetAttr content "key" (PyVal.str "") with
    | Except.error e => Except.error e
    | Except.ok curl =>
      match pyGetAttr content "value" (PyVal.str "") with
      | Except.error e => Except.error e
      | Except.ok response =>
        let dynamicParts := dictGet nodeAttrs "dynamic_parts" (PyVal.str "")
        let extractedParts := dictGet nodeAttrs "extracted_parts" (PyVal.str "")
        let inputVariables := dictGet nodeAttrs "input_variables" (PyVal.str "")
        let toParseResponse := decide (pyLen response ≤ 800000)
        let parseResponsePrompt :=
          "\n    The response is below:\n    " ++ pyStr response ++
          "\n    \n    The below variables should be parsed out of the response:\n    " ++
          pyStr extractedParts ++ "\n    "
        let getInputVariablesPrompt :=
          "\n    Assume these variables below are provided by the user:\n    " ++
          pyStr inputVariables ++
          "\n\n    The key should be the variable name and the value should be the value to be passed in. \n    "
        let prompt :=
          "\n    Task:\n    Write me a python function with a descriptive name that makes a request like the cURL below:\n    " ++
          pyStr curl ++
          "\n    \n    Do not hard code cookie headers. Assume cookies are in a variable called \"cookie_string\"\n\n    The below variables should be passed into the request instead of hard coded:\n    " ++
          pyStr dynamicParts ++ "\n    \n    " ++
          (if toParseResponse then parseResponsePrompt
           else "# parse out the variables \x7bextracted_parts\x7d from the response") ++
          "\n    \n    " ++
          (if pyTruthy inputVariables then getInputVariablesPrompt else "") ++
          "\n\n    Important:\n    - Only output the python script and nothing else.\n    - Don\x27t include any backticks.\n    - Do not use HTTP/2 pseudo-headers (those starting with \x27:\x27) in the headers dictionary.\n    - Remove any \x27priority\x27 headers.\n    - Use standard HTTP/1.1 headers only.\n    "
        Except.ok (pyStrip (llmInvoke prompt))

/-- The mutable run state of `print_dag_in_reverse`: the path-relative
`visited` set, the run-global `fully_processed` set, the printed lines, the
emission order (ids in the order the nodes are printed/marked processed),
and the accumulated `generated_code` string. -/

structure RevState where
  visited : List String
  fullyProcessed : List String
  lines : List String
  order : List String
  generatedCode : String
deriving DecidableEq, Repr

instance : Inhabited RevState := ⟨⟨[], [], [], [], ""⟩⟩

/-- The `for i, child_id in enumerate(children)` loop of
`_print_dag_recursive`: every child is handed to `step` (the recursive call
at one less fuel) with `new_prefix = prefix + ("    " if is_last else "│   ")`. -/

def revLoop (step : String → String → Bool → Nat → RevState → Except PyErr RevState)
    (children : List String) (childCount i : Nat) (pfx : String) (isLast : Bool)
    (depth : Nat) (st : RevState) : Except PyErr RevState :=
  match children with
  | [] => Except.ok st
  | childId :: rest =>
    let isLastChild := i == childCount - 1
    let newPfx := pfx ++ (if isLast then "    " else "│   ")
    match step childId newPfx isLastChild depth st with
    | Except.error e => Except.error e
    | Except.ok st1 => revLoop step rest childCount (i + 1) pfx isLast depth st1

/-- `_print_dag_recursive` (lines 162–215): return on `fully_processed`,
return on `visited` (cycle guard), add to `visited`, unwind at the depth
limit (removing from `visited`), otherwise process every successor first,
then print the node, optionally append its generated code, mark it fully
processed and remove it from `visited`. -/

def revRec (g : Graph) (maxDepth : Option Nat) (toGenerateCode : Bool)
    (llmInvoke : String → String) :
    Nat → String → String → Bool → Nat → RevState → Except PyErr RevState
  | 0, _, _, _, _, _ => Except.error PyErr.recursionError
  | fuel + 1, currentNodeId, pfx, isLast, depth, st =>
    if currentNodeId ∈ st.fullyProcessed then Except.ok st
    else if currentNodeId ∈ st.visited then Except.ok st
    else
      let st1 : RevState := { st with visited := insertSet currentNodeId st.visited }
      if depthHit maxDepth depth then
        Except.ok { st1 with visited := removeSet currentNodeId st1.visited }
      else
        match revLoop (revRec g maxDepth toGenerateCode llmInvoke fuel)
            (g.successors currentNodeId) (g.successors currentNodeId).length 0
            pfx isLast (depth + 1) st1 with
        | Except.error e => Except.error e
        | Except.ok st2 =>
          match getNodeLabel g currentNodeId with
          | Except.error e => Except.error e
          | Except.ok nodeLabel =>
            let st3 : RevState := { st2 with
              lines := st2.lines ++ [pfx ++ (if isLast then "└── " else "├── ") ++ nodeLabel],
              order := st2.order ++ [currentNodeId] }
            if toGenerateCode then
              match generateCode g llmInvoke currentNodeId with
              | Except.error e => Except.error e
              | Except.ok code =>
                Except.ok { st3 with
                  generatedCode := st3.generatedCode ++ code ++ "\n\n",
                  fullyProcessed := insertSet currentNodeId st3.fullyProcessed,
                  visited := removeSet currentNodeId st3.visited }
            else
              Except.ok { st3 with
                fullyProcessed := insertSet currentNodeId st3.fullyProcessed,
                visited := removeSet currentNodeId st3.visited }

/-- The `for idx, source_node in enumerate(source_nodes)` loop of
`print_dag_in_reverse`: each source is walked with a fresh `visited` set and
the shared `fully_processed` set (and the shared line/code accumulators). -/

def sourceLoop (step : String → Bool → RevState → Except PyErr RevState)
    (srcs : List String) (total idx : Nat) (st : RevState) : Except PyErr RevState :=
  match srcs with
  | [] => Except.ok st
  | s :: rest =>
    let isLastSource := idx == total - 1
    match step s isLastSource { st with visited := [] } with
    | Except.error e => Except.error e
    | Except.ok st1 => sourceLoop step rest total (idx + 1) st1

/-- The confirmation line printed after the artifact write. -/

def savedMsg : String := "Generated code has been saved to \x27generated_code.txt\x27"

/-- `print_dag_in_reverse` (lines 155–255): walk every in-degree-0 source,
then — when code generation was requested — write the accumulated text to the
artifact in one write (returned here as the optional artifact string) and
print the confirmation line. -/

def printDagInReverse (g : Graph) (maxDepth : Option Nat) (toGenerateCode : Bool)
    (llmInvoke : String → String) (fuel : Nat) :
    Except PyErr (RevState × Option String) :=
  let sourceNodes := g.sources
  let st0 : RevState := ⟨[], [], [], [], ""⟩
  match sourceLoop (fun s isLast st => revRec g maxDepth toGenerateCode llmInvoke fuel s "" isLast 0 st)
      sourceNodes sourceNodes.length 0 st0 with
  | Except.error e => Except.error e
  | Except.ok stF =>
    if toGenerateCode then
      Except.ok ({ stF with lines := stF.lines ++ [savedMsg] }, some stF.generatedCode)
    else
      Except.ok (stF, none)

/-! ### Basic state evolution of the reverse recursion -/

/-- Invariants relating the state before and after one (successful)
`_print_dag_recursive` call: the path set is restored exactly, the
fully-processed set and the emission order only grow (the order by
appending), and every newly processed node was not on the entry path. -/

def RevBasic (a b : RevState) : Prop :=
  b.visited = a.visited ∧
  (∀ x, x ∈ a.fullyProcessed → x ∈ b.fullyProcessed) ∧
  a.order <+: b.order ∧
  (∀ x, x ∈ b.fullyProcessed → x ∈ a.fullyProcessed ∨ x ∉ a.visited)

/-! ### Emission order: agreement with `fully_processed`, no duplicates -/

/-- The emission order and `fully_processed` contain the same nodes. -/

def OrderFP (st : RevState) : Prop := ∀ x, x ∈ st.order ↔ x ∈ st.fullyProcessed

/-! ### The generated-code accumulator -/

/-- The text block a node contributes to `generated_code`: its generated
code followed by the `"\n\n"` separator appended by
`generated_code += generate_code(current_node_id, graph) + "\n\n"`. -/

def codeBlockOf (g : Graph) (llmInvoke : String → String) (nodeId : String) : String :=
  match generateCode g llmInvoke nodeId with
  | Except.ok c => c ++ "\n\n"
  | Except.error _ => ""

/-- The accumulated `generated_code` is exactly the concatenation of the
blocks of the emitted nodes, in emission order, and each emitted node's
synthesis call succeeded. -/

def GenAcc (g : Graph) (llmInvoke : String → String) (st : RevState) : Prop :=
  (∀ x ∈ st.order, ∃ c, generateCode g llmInvoke x = Except.ok c) ∧
  st.generatedCode = String.join (st.order.map (codeBlockOf g llmInvoke))

/-- Closure invariant of the shared `fully_processed` set: every successor of
a fully processed node is fully processed or still on the recursion path. -/

def RInv (g : Graph) (st : RevState) : Prop :=
  ∀ m ∈ st.fullyProcessed, ∀ c ∈ g.successors m, c ∈ st.fullyProcessed ∨ c ∈ st.visited

/-- Post-order property of an emission list: every edge source appears
strictly after its successor ( `[c, n]` is a sublist: `c` is emitted before
`n`). -/

def PostO (g : Graph) (l : List String) : Prop :=
  ∀ n c, n ∈ l → c ∈ g.successors n → List.Sublist [c, n] l

/-! ### Fuel sufficiency: the recursion depth is bounded by the node count -/

/-- Number of graph nodes not yet in `visited`: the recursion-depth budget. -/

def unvis (g : Graph) (visited : List String) : Nat :=
  (g.nodeIds.filter (fun n => decide (n ∉ visited))).length

/-! ### Lifting the walk invariants across all source nodes -/

/-- Between source walks the path set is empty, so the closure invariant
specialises to: `fully_processed` is closed under successors. -/

def RInvZ (g : Graph) (st : RevState) : Prop :=
  ∀ m ∈ st.fullyProcessed, ∀ c ∈ g.successors m, c ∈ st.fullyProcessed

/-- Characterisation of one forward call: the entry trace is duplicate-free,
contains only nodes that were unvisited at entry, and the final visited set
is exactly the entry set plus the trace. -/

def FwdTrace (v : List String) (out : FwdOut) : Prop :=
  out.trace.Nodup ∧ (∀ x ∈ out.trace, x ∉ v) ∧
  (∀ x, x ∈ out.visited ↔ x ∈ v ∨ x ∈ out.trace)

/-! ### Concrete graphs used to exercise the traversals -/

/-- A fully populated attribute dictionary (the shape the upstream graph
builder produces): `content` is a key/value dict, the part lists are lists. -/

def attrsFull (k v : String) : List (String × PyVal) :=
  [("node_type", PyVal.str "request"),
   ("content", PyVal.dict [("key", PyVal.str k), ("value", PyVal.str v)]),
   ("dynamic_parts", PyVal.list []),
   ("extracted_parts", PyVal.list []),
   ("input_variables", PyVal.list [])]

/-- The §8 scenario: nodes A, B, C with edges A→B, A→C, B→C; single source A. -/

def gABC : Graph :=
  ⟨[("A", attrsFull "curlA" "respA"), ("B", attrsFull "curlB" "respB"),
    ("C", attrsFull "curlC" "respC")],
   [("A", "B"), ("A", "C"), ("B", "C")]⟩

/-- A pure directed cycle A→B→C→A: every node has an incoming edge, so there
is no source node. -/

def gCycle : Graph :=
  ⟨[("A", attrsFull "cA" "rA"), ("B", attrsFull "cB" "rB"), ("C", attrsFull "cC" "rC")],
   [("A", "B"), ("B", "C"), ("C", "A")]⟩

/-- The cycle A→B→C→A reached from a source S. -/

def gSCycle : Graph :=
  ⟨[("S", attrsFull "cS" "rS"), ("A", attrsFull "cA" "rA"),
    ("B", attrsFull "cB" "rB"), ("C", attrsFull "cC" "rC")],
   [("S", "A"), ("A", "B"), ("B", "C"), ("C", "A")]⟩

/-- Two sources sharing a node: S1→T, S2→T, T→U. -/

def gTwoSrc : Graph :=
  ⟨[("S1", attrsFull "c1" "r1"), ("S2", attrsFull "c2" "r2"),
    ("T", attrsFull "cT" "rT"), ("U", attrsFull "cU" "rU")],
   [("S1", "T"), ("S2", "T"), ("T", "U")]⟩

/-- A node with an empty attribute dictionary: every expected key is missing. -/

def gMissing : Graph := ⟨[("n", [])], []⟩

/-- A node with only `content`: the other expected keys are missing. -/

def gPartial : Graph := ⟨[("p", [("content", PyVal.dict [("key", PyVal.str "K")])])], []⟩

/-- A single node with full attributes and no edges. -/

def gOne : Graph := ⟨[("A", attrsFull "cA" "rA")], []⟩

/-- The trivial LLM stub used when code generation is disabled or its output
is irrelevant. -/

def llm0 : String → String := fun _ => ""

/-- The reverse-run state extractor (defaults on error). -/

def runRev (g : Graph) (md : Option Nat) (tg : Bool) (llm : String → String)
    (fuel : Nat) : RevState :=
  match printDagInReverse g md tg llm fuel with
  | Except.ok p => p.1
  | Except.error _ => default

/-- The reverse-run artifact extractor (defaults on error). -/

def runArt (g : Graph) (md : Option Nat) (tg : Bool) (llm : String → String)
    (fuel : Nat) : Option String :=
  match printDagInReverse g md tg llm fuel with
  | Except.ok p => p.2
  | Except.error _ => none

/-- The forward-run output extractor (defaults on error). -/

def runFwd (g : Graph) (md : Option Nat) (fuel : Nat) (nodeId pfx : String)
    (il : Bool) (v : List String) (d : Nat) : FwdOut :=
  match printDag g md fuel nodeId pfx il v d with
  | Except.ok r => r
  | Except.error _ => ⟨[], [], []⟩

/-- The string payload of a successful label computation. -/

def okStr (e : Except PyErr String) : String :=
  match e with
  | Except.ok s => s
  | Except.error _ => ""

/-- A topological rank witnessing that `gABC` is acyclic. -/

def rankABC (s : String) : Nat := if s = "A" then 0 else if s = "B" then 1 else 2

instance (g : Graph) : Decidable g.WF :=
  inferInstanceAs (Decidable (∀ e ∈ g.edges, e.1 ∈ g.nodeIds ∧ e.2 ∈ g.nodeIds))

/-! ### Set-as-list helper lemmas -/

theorem mem_insertSet {x y : String} {l : List String} :
    y ∈ insertSet x l ↔ y = x ∨ y ∈ l := by
  unfold insertSet
  by_cases h : x ∈ l
  · simp only [if_pos h]
    constructor
    · exact Or.inr
    · rintro (rfl | h') <;> assumption
  · simp [if_neg h]

theorem self_mem_insertSet {x : String} {l : List String} : x ∈ insertSet x l :=
  mem_insertSet.mpr (Or.inl rfl)

theorem removeSet_insertSet {x : String} {l : List String} (h : x ∉ l) :
    removeSet x (insertSet x l) = l := by
  unfold insertSet removeSet
  rw [if_neg h]
  exact List.erase_cons_head x l

theorem join_append_single (l : List String) (s : String) :
    String.join (l ++ [s]) = String.join l ++ s := by
  simp [String.join, List.foldl_append]

theorem revBasic_refl (s : RevState) : RevBasic s s :=
  ⟨rfl, fun _ h => h, List.prefix_refl _, fun _ h => Or.inl h⟩

theorem revBasic_trans {a b c : RevState} (h1 : RevBasic a b) (h2 : RevBasic b c) :
    RevBasic a c := by
  obtain ⟨hv1, hf1, ho1, hfr1⟩ := h1
  obtain ⟨hv2, hf2, ho2, hfr2⟩ := h2
  refine ⟨hv2.trans hv1, fun x hx => hf2 x (hf1 x hx), ho1.trans ho2, fun x hx => ?_⟩
  rcases hfr2 x hx with h | h
  · exact hfr1 x h
  · right
    rw [← hv1]
    exact h

/-- A reflexive-transitive relation satisfied by every `step` call is
satisfied by the whole child loop. -/

theorem revLoop_rel {R : RevState → RevState → Prop} (hrefl : ∀ s, R s s)
    (htrans : ∀ {a b c : RevState}, R a b → R b c → R a c)
    {step : String → String → Bool → Nat → RevState → Except PyErr RevState}
    (hstep : ∀ c p il d s s', step c p il d s = Except.ok s' → R s s') :
    ∀ children cnt i p il d s s',
      revLoop step children cnt i p il d s = Except.ok s' → R s s' := by
  intro children
  induction children with
  | nil =>
    intro cnt i p il d s s' h
    simp only [revLoop] at h
    cases h
    exact hrefl s
  | cons c rest ih =>
    intro cnt i p il d s s' h
    simp only [revLoop] at h
    split at h
    · simp at h
    · rename_i st1 heq
      exact htrans (hstep _ _ _ _ _ _ heq) (ih _ _ _ _ _ _ _ h)

theorem revBasic_assemble {st st2 st' : RevState} {nodeId : String}
    (h2 : nodeId ∉ st.visited)
    (hb : RevBasic { st with visited := insertSet nodeId st.visited } st2)
    (hv : st'.visited = removeSet nodeId st2.visited)
    (hf : st'.fullyProcessed = insertSet nodeId st2.fullyProcessed)
    (ho : st'.order = st2.order ++ [nodeId]) :
    RevBasic st st' := by
  obtain ⟨hv2, hf2, ho2, hfr2⟩ := hb
  refine ⟨?_, ?_, ?_, ?_⟩
  · rw [hv, hv2]
    exact removeSet_insertSet h2
  · intro x hx
    rw [hf]
    exact mem_insertSet.mpr (Or.inr (hf2 x hx))
  · rw [ho]
    exact ho2.trans (List.prefix_append _ _)
  · intro x hx
    rw [hf] at hx
    rcases mem_insertSet.mp hx with rfl | hx2
    · exact Or.inr h2
    · rcases hfr2 x hx2 with h | h
      · exact Or.inl h
      · exact Or.inr (fun hmem => h (mem_insertSet.mpr (Or.inr hmem)))

/-- Every successful `_print_dag_recursive` call satisfies `RevBasic`. -/

theorem revRec_basic (g : Graph) (md : Option Nat) (tg : Bool) (llm : String → String) :
    ∀ fuel nodeId pfx il d st st',
      revRec g md tg llm fuel nodeId pfx il d st = Except.ok st' → RevBasic st st' := by
  intro fuel
  induction fuel with
  | zero =>
    intro nodeId pfx il d st st' h
    simp only [revRec] at h
    simp at h
  | succ f ih =>
    intro nodeId pfx il d st st' h
    simp only [revRec] at h
    split at h
    · cases h
      exact revBasic_refl st
    · split at h
      · cases h
        exact revBasic_refl st
      · rename_i h1 h2
        split at h
        · cases h
          refine ⟨?_, fun x hx => hx, List.prefix_refl _, fun x hx => Or.inl hx⟩
          exact removeSet_insertSet h2
        · split at h
          · simp at h
          · rename_i st2 hloop
            have hb : RevBasic { st with visited := insertSet nodeId st.visited } st2 :=
              revLoop_rel revBasic_refl revBasic_trans
                (fun c p il' d' s s' hs => ih c p il' d' s s' hs)
                _ _ _ _ _ _ _ _ hloop
            split at h
            · simp at h
            · rename_i lbl hlbl
              split at h
              · split at h
                · simp at h
                · rename_i code hcode
                  cases h
                  exact revBasic_assemble h2 hb rfl rfl rfl
              · cases h
                exact revBasic_assemble h2 hb rfl rfl rfl

theorem revOFN_assemble {st2 st' : RevState} {nodeId : String}
    (hfresh : nodeId ∉ st2.fullyProcessed)
    (hofp2 : OrderFP st2) (hnd2 : st2.order.Nodup)
    (hf : st'.fullyProcessed = insertSet nodeId st2.fullyProcessed)
    (ho : st'.order = st2.order ++ [nodeId]) :
    OrderFP st' ∧ st'.order.Nodup := by
  constructor
  · intro x
    rw [ho, hf, List.mem_append, List.mem_singleton, mem_insertSet, hofp2 x, or_comm]
  · rw [ho, List.nodup_append]
    refine ⟨hnd2, List.nodup_singleton _, fun x hx1 hx2 => ?_⟩
    rw [List.mem_singleton] at hx2
    subst hx2
    exact hfresh ((hofp2 x).mp hx1)

/-- A successful `_print_dag_recursive` call preserves order/fully-processed
agreement and duplicate-freeness of the emission order. -/

theorem revRec_ofn (g : Graph) (md : Option Nat) (tg : Bool) (llm : String → String) :
    ∀ fuel nodeId pfx il d st st',
      revRec g md tg llm fuel nodeId pfx il d st = Except.ok st' →
      (OrderFP st ∧ st.order.Nodup) → (OrderFP st' ∧ st'.order.Nodup) := by
  intro fuel
  induction fuel with
  | zero =>
    intro nodeId pfx il d st st' h
    simp only [revRec] at h
    simp at h
  | succ f ih =>
    intro nodeId pfx il d st st' h hin
    simp only [revRec] at h
    split at h
    · cases h
      exact hin
    · split at h
      · cases h
        exact hin
      · rename_i h1 h2
        split at h
        · cases h
          exact hin
        · split at h
          · simp at h
          · rename_i st2 hloop
            have hb : RevBasic { st with visited := insertSet nodeId st.visited } st2 :=
              revLoop_rel revBasic_refl revBasic_trans
                (revRec_basic g md tg llm f) _ _ _ _ _ _ _ _ hloop
            have hw : (OrderFP st2 ∧ st2.order.Nodup) :=
              revLoop_rel
                (R := fun a b => (OrderFP a ∧ a.order.Nodup) → (OrderFP b ∧ b.order.Nodup))
                (fun _ hx => hx) (fun hab hbc hx => hbc (hab hx))
                (fun c p il' d' s s' hs => ih c p il' d' s s' hs)
                _ _ _ _ _ _ _ _ hloop hin
            have hfresh : nodeId ∉ st2.fullyProcessed := by
              intro hmem
              rcases hb.2.2.2 nodeId hmem with hc | hc
              · exact h1 hc
              · exact hc self_mem_insertSet
            split at h
            · simp at h
            · rename_i lbl hlbl
              split at h
              · split at h
                · simp at h
                · rename_i code hcode
                  cases h
                  exact revOFN_assemble hfresh hw.1 hw.2 rfl rfl
              · cases h
                exact revOFN_assemble hfresh hw.1 hw.2 rfl rfl

theorem genAcc_assemble {g : Graph} {llm : String → String} {st2 st' : RevState}
    {nodeId code : String}
    (hcode : generateCode g llm nodeId = Except.ok code)
    (hacc : GenAcc g llm st2)
    (ho : st'.order = st2.order ++ [nodeId])
    (hg : st'.generatedCode = st2.generatedCode ++ code ++ "\n\n") :
    GenAcc g llm st' := by
  obtain ⟨hok, hjoin⟩ := hacc
  constructor
  · intro x hx
    rw [ho, List.mem_append, List.mem_singleton] at hx
    rcases hx with hx | rfl
    · exact hok x hx
    · exact ⟨code, hcode⟩
  · rw [hg, ho, List.map_append, List.map_singleton, join_append_single, hjoin,
      String.append_assoc]
    have : codeBlockOf g llm nodeId = code ++ "\n\n" := by
      unfold codeBlockOf
      rw [hcode]
    rw [this]

/-- When code generation is requested, a successful `_print_dag_recursive`
call preserves `GenAcc`. -/

theorem revRec_genacc (g : Graph) (md : Option Nat) (llm : String → String) :
    ∀ fuel nodeId pfx il d st st',
      revRec g md true llm fuel nodeId pfx il d st = Except.ok st' →
      GenAcc g llm st → GenAcc g llm st' := by
  intro fuel
  induction fuel with
  | zero =>
    intro nodeId pfx il d st st' h
    simp only [revRec] at h
    simp at h
  | succ f ih =>
    intro nodeId pfx il d st st' h hin
    simp only [revRec] at h
    split at h
    · cases h
      exact hin
    · split at h
      · cases h
        exact hin
      · rename_i h1 h2
        split at h
        · cases h
          exact hin
        · split at h
          · simp at h
          · rename_i st2 hloop
            have hacc2 : GenAcc g llm st2 :=
              revLoop_rel (R := fun a b => GenAcc g llm a → GenAcc g llm b)
                (fun _ hx => hx) (fun hab hbc hx => hbc (hab hx))
                (fun c p il' d' s s' hs => ih c p il' d' s s' hs)
                _ _ _ _ _ _ _ _ hloop hin
            split at h
            · simp at h
            · rename_i lbl hlbl
              split at h
              · split at h
                · simp at h
                · rename_i code hcode
                  cases h
                  exact genAcc_assemble hcode hacc2 rfl rfl
              · rename_i hfalse
                exact absurd trivial hfalse

/-! ### Completeness, closure, soundness and post-order of the reverse walk -/

/-- With no depth limit, a successful call on a node leaves it fully
processed unless it was already on the recursion path. -/

theorem revRec_complete (g : Graph) (tg : Bool) (llm : String → String) :
    ∀ fuel nodeId pfx il d st st',
      revRec g none tg llm fuel nodeId pfx il d st = Except.ok st' →
      nodeId ∈ st'.fullyProcessed ∨ nodeId ∈ st.visited := by
  intro fuel nodeId pfx il d st st' h
  cases fuel with
  | zero =>
    simp only [revRec] at h
    simp at h
  | succ f =>
    simp only [revRec] at h
    split at h
    · rename_i h1
      cases h
      exact Or.inl h1
    · split at h
      · rename_i h2
        cases h
        exact Or.inr h2
      · split at h
        · rename_i hd
          simp [depthHit] at hd
        · split at h
          · simp at h
          · rename_i st2 hloop
            split at h
            · simp at h
            · rename_i lbl hlbl
              split at h
              · split at h
                · simp at h
                · cases h
                  exact Or.inl self_mem_insertSet
              · cases h
                exact Or.inl self_mem_insertSet

/-- Every child of a completed child loop ends fully processed or was on the
path when the loop started (no depth limit). -/

theorem revLoop_children {g : Graph} {tg : Bool} {llm : String → String} {f : Nat} :
    ∀ children cnt i p il d s s',
      revLoop (revRec g none tg llm f) children cnt i p il d s = Except.ok s' →
      ∀ c ∈ children, c ∈ s'.fullyProcessed ∨ c ∈ s.visited := by
  intro children
  induction children with
  | nil =>
    intro cnt i p il d s s' h c hc
    simp at hc
  | cons c rest ih =>
    intro cnt i p il d s s' h c' hc'
    simp only [revLoop] at h
    split at h
    · simp at h
    · rename_i st1 heq
      rcases List.mem_cons.mp hc' with rfl | hc'
      · rcases revRec_complete g tg llm f c' _ _ _ s st1 heq with hca | hca
        · have hb : RevBasic st1 s' :=
            revLoop_rel revBasic_refl revBasic_trans
              (revRec_basic g none tg llm f) _ _ _ _ _ _ _ _ h
          exact Or.inl (hb.2.1 c' hca)
        · exact Or.inr hca
      · rcases ih _ _ _ _ _ _ _ h c' hc' with hca | hca
        · exact Or.inl hca
        · have hb1 : RevBasic s st1 := revRec_basic g none tg llm f _ _ _ _ _ _ heq
          right
          rw [← hb1.1]
          exact hca

theorem rinv_assemble {g : Graph} {st st2 st' : RevState} {nodeId : String}
    (h2 : nodeId ∉ st.visited)
    (hv2 : st2.visited = insertSet nodeId st.visited)
    (hinv2 : RInv g st2)
    (hch : ∀ c ∈ g.successors nodeId, c ∈ st2.fullyProcessed ∨ c ∈ insertSet nodeId st.visited)
    (hf : st'.fullyProcessed = insertSet nodeId st2.fullyProcessed)
    (hv : st'.visited = removeSet nodeId st2.visited) :
    RInv g st' := by
  have hv' : st'.visited = st.visited := by
    rw [hv, hv2, removeSet_insertSet h2]
  intro m hm c hc
  rw [hf] at hm ⊢
  rw [hv']
  rcases mem_insertSet.mp hm with rfl | hm2
  · rcases hch c hc with hcc | hcc
    · exact Or.inl (mem_insertSet.mpr (Or.inr hcc))
    · rcases mem_insertSet.mp hcc with rfl | hcc
      · exact Or.inl self_mem_insertSet
      · exact Or.inr hcc
  · rcases hinv2 m hm2 c hc with hcc | hcc
    · exact Or.inl (mem_insertSet.mpr (Or.inr hcc))
    · rw [hv2] at hcc
      rcases mem_insertSet.mp hcc with rfl | hcc
      · exact Or.inl self_mem_insertSet
      · exact Or.inr hcc

/-- With no depth limit, a successful `_print_dag_recursive` call preserves
the closure invariant. -/

theorem revRec_rinv (g : Graph) (tg : Bool) (llm : String → String) :
    ∀ fuel nodeId pfx il d st st',
      revRec g none tg llm fuel nodeId pfx il d st = Except.ok st' →
      RInv g st → RInv g st' := by
  intro fuel
  induction fuel with
  | zero =>
    intro nodeId pfx il d st st' h
    simp only [revRec] at h
    simp at h
  | succ f ih =>
    intro nodeId pfx il d st st' h hin
    simp only [revRec] at h
    split at h
    · cases h
      exact hin
    · split at h
      · cases h
        exact hin
      · rename_i h1 h2
        split at h
        · rename_i hd
          simp [depthHit] at hd
        · split at h
          · simp at h
          · rename_i st2 hloop
            have hb : RevBasic { st with visited := insertSet nodeId st.visited } st2 :=
              revLoop_rel revBasic_refl revBasic_trans
                (revRec_basic g none tg llm f) _ _ _ _ _ _ _ _ hloop
            have hin1 : RInv g { st with visited := insertSet nodeId st.visited } :=
              fun m hm c hc =>
                (hin m hm c hc).imp_right (fun hx => mem_insertSet.mpr (Or.inr hx))
            have hinv2 : RInv g st2 :=
              revLoop_rel (R := fun a b => RInv g a → RInv g b)
                (fun _ hx => hx) (fun hab hbc hx => hbc (hab hx))
                (fun c p il' d' s s' hs => ih c p il' d' s s' hs)
                _ _ _ _ _ _ _ _ hloop hin1
            have hch : ∀ c ∈ g.successors nodeId,
                c ∈ st2.fullyProcessed ∨ c ∈ insertSet nodeId st.visited :=
              revLoop_children _ _ _ _ _ _ _ _ hloop
            split at h
            · simp at h
            · rename_i lbl hlbl
              split at h
              · split at h
                · simp at h
                · cases h
                  exact rinv_assemble h2 hb.1 hinv2 hch rfl rfl
              · cases h
                exact rinv_assemble h2 hb.1 hinv2 hch rfl rfl

/-- Nodes newly processed by a child loop are reachable from some child. -/

theorem revLoop_sound {g : Graph}
    {step : String → String → Bool → Nat → RevState → Except PyErr RevState}
    (hstep : ∀ c p il d s s', step c p il d s = Except.ok s' →
      ∀ x ∈ s'.fullyProcessed, x ∈ s.fullyProcessed ∨ g.Reaches c x) :
    ∀ children cnt i p il d s s',
      revLoop step children cnt i p il d s = Except.ok s' →
      ∀ x ∈ s'.fullyProcessed, x ∈ s.fullyProcessed ∨ ∃ c ∈ children, g.Reaches c x := by
  intro children
  induction children with
  | nil =>
    intro cnt i p il d s s' h x hx
    simp only [revLoop] at h
    cases h
    exact Or.inl hx
  | cons c rest ih =>
    intro cnt i p il d s s' h x hx
    simp only [revLoop] at h
    split at h
    · simp at h
    · rename_i st1 heq
      rcases ih _ _ _ _ _ _ _ h x hx with hx1 | ⟨c', hc', hr⟩
      · rcases hstep _ _ _ _ _ _ heq x hx1 with hx2 | hr
        · exact Or.inl hx2
        · exact Or.inr ⟨c, List.mem_cons_self c rest, hr⟩
      · exact Or.inr ⟨c', List.mem_cons.mpr (Or.inr hc'), hr⟩

/-- Soundness: every node a successful `_print_dag_recursive` call adds to
`fully_processed` is reachable from the entered node. -/

theorem revRec_sound (g : Graph) (md : Option Nat) (tg : Bool) (llm : String → String) :
    ∀ fuel nodeId pfx il d st st',
      revRec g md tg llm fuel nodeId pfx il d st = Except.ok st' →
      ∀ x ∈ st'.fullyProcessed, x ∈ st.fullyProcessed ∨ g.Reaches nodeId x := by
  intro fuel
  induction fuel with
  | zero =>
    intro nodeId pfx il d st st' h
    simp only [revRec] at h
    simp at h
  | succ f ih =>
    intro nodeId pfx il d st st' h x hx
    simp only [revRec] at h
    split at h
    · cases h
      exact Or.inl hx
    · split at h
      · cases h
        exact Or.inl hx
      · rename_i h1 h2
        split at h
        · cases h
          exact Or.inl hx
        · split at h
          · simp at h
          · rename_i st2 hloop
            split at h
            · simp at h
            · rename_i lbl hlbl
              have hmain : x ∈ st2.fullyProcessed → x ∈ st.fullyProcessed ∨ g.Reaches nodeId x := by
                intro hx2
                rcases revLoop_sound (fun c p il' d' s s' hs => ih c p il' d' s s' hs)
                    _ _ _ _ _ _ _ _ hloop x hx2 with hx3 | ⟨c, hc, hr⟩
                · exact Or.inl hx3
                · exact Or.inr (Relation.ReflTransGen.head hc hr)
              split at h
              · split at h
                · simp at h
                · cases h
                  rcases mem_insertSet.mp hx with rfl | hx2
                  · exact Or.inr Relation.ReflTransGen.refl
                  · exact hmain hx2
              · cases h
                rcases mem_insertSet.mp hx with rfl | hx2
                · exact Or.inr Relation.ReflTransGen.refl
                · exact hmain hx2

/-- The child loop preserves the post-order property, provided every node on
the current path reaches every child. -/

theorem revLoop_post {g : Graph}
    {step : String → String → Bool → Nat → RevState → Except PyErr RevState}
    (hstep_vis : ∀ c p il d s s', step c p il d s = Except.ok s' → s'.visited = s.visited)
    (hstep_ofn : ∀ c p il d s s', step c p il d s = Except.ok s' →
      (OrderFP s ∧ s.order.Nodup) → (OrderFP s' ∧ s'.order.Nodup))
    (hstep_post : ∀ c p il d s s', step c p il d s = Except.ok s' →
      (∀ v ∈ s.visited, g.Reaches v c) →
      OrderFP s → s.order.Nodup → PostO g s.order → PostO g s'.order) :
    ∀ children cnt i p il d s s',
      revLoop step children cnt i p il d s = Except.ok s' →
      (∀ v ∈ s.visited, ∀ c ∈ children, g.Reaches v c) →
      OrderFP s → s.order.Nodup → PostO g s.order → PostO g s'.order := by
  intro children
  induction children with
  | nil =>
    intro cnt i p il d s s' h hpaths hofp hnd hpo
    simp only [revLoop] at h
    cases h
    exact hpo
  | cons c rest ih =>
    intro cnt i p il d s s' h hpaths hofp hnd hpo
    simp only [revLoop] at h
    split at h
    · simp at h
    · rename_i st1 heq
      have hpo1 := hstep_post _ _ _ _ _ _ heq
        (fun v hv => hpaths v hv c (List.mem_cons_self c rest)) hofp hnd hpo
      have hofn1 := hstep_ofn _ _ _ _ _ _ heq ⟨hofp, hnd⟩
      have hvis1 := hstep_vis _ _ _ _ _ _ heq
      exact ih _ _ _ _ _ _ _ h
        (fun v hv c' hc' => hpaths v (hvis1 ▸ hv) c' (List.mem_cons.mpr (Or.inr hc')))
        hofn1.1 hofn1.2 hpo1

/-- With no depth limit on an acyclic graph, a successful
`_print_dag_recursive` call preserves the post-order property of the
emission order: when a node is printed, all its successors have already been
printed. -/

theorem revRec_post (g : Graph) (tg : Bool) (llm : String → String) (hacyc : g.Acyclic) :
    ∀ fuel nodeId pfx il d st st',
      revRec g none tg llm fuel nodeId pfx il d st = Except.ok st' →
      (∀ v ∈ st.visited, g.Reaches v nodeId) →
      OrderFP st → st.order.Nodup → PostO g st.order → PostO g st'.order := by
  intro fuel
  induction fuel with
  | zero =>
    intro nodeId pfx il d st st' h
    simp only [revRec] at h
    simp at h
  | succ f ih =>
    intro nodeId pfx il d st st' h hpath hofp hnd hpo
    simp only [revRec] at h
    split at h
    · cases h
      exact hpo
    · split at h
      · cases h
        exact hpo
      · rename_i h1 h2
        split at h
        · rename_i hd
          simp [depthHit] at hd
        · split at h
          · simp at h
          · rename_i st2 hloop
            have hb : RevBasic { st with visited := insertSet nodeId st.visited } st2 :=
              revLoop_rel revBasic_refl revBasic_trans
                (revRec_basic g none tg llm f) _ _ _ _ _ _ _ _ hloop
            have hpaths1 : ∀ v ∈ insertSet nodeId st.visited,
                ∀ c ∈ g.successors nodeId, g.Reaches v c := by
              intro v hv c hc
              rcases mem_insertSet.mp hv with rfl | hv2
              · exact Relation.ReflTransGen.single hc
              · exact Relation.ReflTransGen.tail (hpath v hv2) hc
            have hofn2 : OrderFP st2 ∧ st2.order.Nodup :=
              revLoop_rel
                (R := fun a b => (OrderFP a ∧ a.order.Nodup) → (OrderFP b ∧ b.order.Nodup))
                (fun _ hx => hx) (fun hab hbc hx => hbc (hab hx))
                (revRec_ofn g none tg llm f)
                _ _ _ _ _ _ _ _ hloop ⟨hofp, hnd⟩
            have hpost2 : PostO g st2.order :=
              revLoop_post
                (fun c p il' d' s s' hs => (revRec_basic g none tg llm f c p il' d' s s' hs).1)
                (revRec_ofn g none tg llm f)
                (fun c p il' d' s s' hs hp ho hn hq => ih c p il' d' s s' hs hp ho hn hq)
                _ _ _ _ _ _ _ _ hloop hpaths1 hofp hnd hpo
            have hch : ∀ c ∈ g.successors nodeId,
                c ∈ st2.fullyProcessed ∨ c ∈ insertSet nodeId st.visited :=
              revLoop_children _ _ _ _ _ _ _ _ hloop
            have hfinal : PostO g (st2.order ++ [nodeId]) := by
              intro n c hn hc
              rw [List.mem_append, List.mem_singleton] at hn
              rcases hn with hn | hn2
              · exact (hpost2 n c hn hc).trans (List.sublist_append_left _ _)
              · subst hn2
                have hcfp : c ∈ st2.fullyProcessed := by
                  rcases hch c hc with hcc | hcc
                  · exact hcc
                  · exfalso
                    rcases mem_insertSet.mp hcc with hceq | hcc
                    · refine hacyc n c hc ?_
                      rw [hceq]
                      exact Relation.ReflTransGen.refl
                    · exact hacyc n c hc (hpath c hcc)
                have hco : c ∈ st2.order := (hofn2.1 c).mpr hcfp
                exact List.Sublist.append (List.singleton_sublist.mpr hco)
                  (List.Sublist.refl [n])
            split at h
            · simp at h
            · rename_i lbl hlbl
              split at h
              · split at h
                · simp at h
                · cases h
                  exact hfinal
              · cases h
                exact hfinal

theorem filter_length_le_of_imp {α : Type} {l : List α} {p q : α → Bool}
    (h : ∀ x, q x = true → p x = true) :
    (l.filter q).length ≤ (l.filter p).length := by
  induction l with
  | nil => simp
  | cons a t ih =>
    rw [List.filter_cons, List.filter_cons]
    by_cases hq : q a = true
    · rw [if_pos hq, if_pos (h a hq)]
      simp only [List.length_cons]
      exact Nat.succ_le_succ ih
    · rw [if_neg hq]
      split
      · exact Nat.le_succ_of_le ih
      · exact ih

theorem filter_length_lt {α : Type} {l : List α} {p q : α → Bool}
    (h : ∀ x, q x = true → p x = true) {a : α} (ha : a ∈ l)
    (hpa : p a = true) (hqa : q a = false) :
    (l.filter q).length < (l.filter p).length := by
  induction l with
  | nil => cases ha
  | cons b t ih =>
    rw [List.filter_cons, List.filter_cons]
    rcases List.mem_cons.mp ha with rfl | hat
    · rw [if_pos hpa, if_neg (by simp [hqa])]
      simp only [List.length_cons]
      exact Nat.lt_succ_of_le (filter_length_le_of_imp h)
    · by_cases hq : q b = true
      · rw [if_pos hq, if_pos (h b hq)]
        simp only [List.length_cons]
        exact Nat.succ_lt_succ (ih hat)
      · rw [if_neg hq]
        split
        · exact Nat.lt_succ_of_lt (ih hat)
        · exact ih hat

theorem unvis_strict {g : Graph} {nodeId : String} (hmem : nodeId ∈ g.nodeIds)
    {visited : List String} (hnv : nodeId ∉ visited) :
    unvis g (insertSet nodeId visited) < unvis g visited := by
  unfold unvis
  refine filter_length_lt ?_ hmem ?_ ?_
  · intro x hx
    simp only [decide_eq_true_eq] at hx ⊢
    exact fun hmem2 => hx (mem_insertSet.mpr (Or.inr hmem2))
  · simp [hnv]
  · simp [self_mem_insertSet]

/-- In a well-formed graph a non-node has no successors. -/

theorem successors_eq_nil_of_not_mem {g : Graph} (hwf : g.WF) {x : String}
    (hx : x ∉ g.nodeIds) : g.successors x = [] := by
  unfold Graph.successors
  rw [List.map_eq_nil_iff]
  rw [List.filter_eq_nil_iff]
  intro e he hbeq
  exact hx (by
    have : e.1 = x := by simpa using hbeq
    rw [← this]
    exact (hwf e he).1)

theorem nodeAttrs_not_recErr {g : Graph} {x : String} :
    g.nodeAttrs x ≠ Except.error PyErr.recursionError := by
  unfold Graph.nodeAttrs
  split <;> simp

theorem pyGetAttr_not_recErr {v : PyVal} {k : String} {dflt : PyVal} :
    pyGetAttr v k dflt ≠ Except.error PyErr.recursionError := by
  unfold pyGetAttr
  split <;> simp

theorem getNodeLabel_not_recErr {g : Graph} {x : String} :
    getNodeLabel g x ≠ Except.error PyErr.recursionError := by
  unfold getNodeLabel
  split
  · rename_i e heq
    intro h
    injection h with h'
    subst h'
    exact nodeAttrs_not_recErr heq
  · dsimp only
    split
    · rename_i e heq
      intro h
      injection h with h'
      subst h'
      exact pyGetAttr_not_recErr heq
    · simp

theorem generateCode_not_recErr {g : Graph} {llm : String → String} {x : String} :
    generateCode g llm x ≠ Except.error PyErr.recursionError := by
  unfold generateCode
  split
  · rename_i e heq
    intro h
    injection h with h'
    subst h'
    exact nodeAttrs_not_recErr heq
  · dsimp only
    split
    · rename_i e heq
      intro h
      injection h with h'
      subst h'
      exact pyGetAttr_not_recErr heq
    · split
      · rename_i e heq
        intro h
        injection h with h'
        subst h'
        exact pyGetAttr_not_recErr heq
      · simp

/-- With per-call fuel exceeding the unvisited-node count, the child loop
never exhausts the recursion budget. -/

theorem revLoop_nf {g : Graph} {md : Option Nat} {tg : Bool} {llm : String → String}
    {f : Nat}
    (hstep : ∀ c p il d s, unvis g s.visited < f →
      revRec g md tg llm f c p il d s ≠ Except.error PyErr.recursionError) :
    ∀ children cnt i p il d s, unvis g s.visited < f →
      revLoop (revRec g md tg llm f) children cnt i p il d s ≠
        Except.error PyErr.recursionError := by
  intro children
  induction children with
  | nil =>
    intro cnt i p il d s hf h
    simp only [revLoop] at h
    simp at h
  | cons c rest ih =>
    intro cnt i p il d s hf h
    simp only [revLoop] at h
    split at h
    · rename_i e heq
      injection h with h'
      subst h'
      exact hstep _ _ _ _ _ hf heq
    · rename_i st1 heq
      have hv : st1.visited = s.visited := (revRec_basic g md tg llm f _ _ _ _ _ _ heq).1
      refine ih _ _ _ _ _ _ ?_ h
      rw [hv]
      exact hf

/-- `_print_dag_recursive` never exhausts recursion fuel exceeding the number
of not-yet-visited nodes: the recursion depth is bounded because every frame
adds its (previously unvisited) node to the path before recursing. -/

theorem revRec_nf (g : Graph) (md : Option Nat) (tg : Bool) (llm : String → String)
    (hwf : g.WF) :
    ∀ fuel nodeId pfx il d st,
      unvis g st.visited < fuel →
      revRec g md tg llm fuel nodeId pfx il d st ≠ Except.error PyErr.recursionError := by
  intro fuel
  induction fuel with
  | zero =>
    intro nodeId pfx il d st hf
    exact absurd hf (Nat.not_lt_zero _)
  | succ f ih =>
    intro nodeId pfx il d st hf h
    simp only [revRec] at h
    split at h
    · simp at h
    · split at h
      · simp at h
      · rename_i h1 h2
        split at h
        · simp at h
        · by_cases hmem : nodeId ∈ g.nodeIds
          · have hf1 : unvis g (insertSet nodeId st.visited) < f := by
              have hlt := unvis_strict hmem h2
              omega
            split at h
            · rename_i e heq
              injection h with h'
              subst h'
              exact revLoop_nf (fun c p' il' d' s hfx => ih c p' il' d' s hfx)
                _ _ _ _ _ _ _ hf1 heq
            · rename_i st2 heq2
              split at h
              · rename_i e heq
                injection h with h'
                subst h'
                exact getNodeLabel_not_recErr heq
              · split at h
                · split at h
                  · rename_i e heq
                    injection h with h'
                    subst h'
                    exact generateCode_not_recErr heq
                  · simp at h
                · simp at h
          · rw [successors_eq_nil_of_not_mem hwf hmem] at h
            simp only [revLoop] at h
            split at h
            · rename_i e heq
              injection h with h'
              subst h'
              exact getNodeLabel_not_recErr heq
            · split at h
              · split at h
                · rename_i e heq
                  injection h with h'
                  subst h'
                  exact generateCode_not_recErr heq
                · simp at h
              · simp at h

theorem sourceLoop_rel {R : RevState → RevState → Prop}
    (hrefl : ∀ s, R s s) (htrans : ∀ {a b c : RevState}, R a b → R b c → R a c)
    (hreset : ∀ s, R s { s with visited := [] })
    {step : String → Bool → RevState → Except PyErr RevState}
    (hstep : ∀ s il a b, step s il a = Except.ok b → R a b) :
    ∀ srcs total idx st st',
      sourceLoop step srcs total idx st = Except.ok st' → R st st' := by
  intro srcs
  induction srcs with
  | nil =>
    intro total idx st st' h
    simp only [sourceLoop] at h
    cases h
    exact hrefl st
  | cons s rest ih =>
    intro total idx st st' h
    simp only [sourceLoop] at h
    split at h
    · simp at h
    · rename_i st1 heq
      exact htrans (htrans (hreset st) (hstep _ _ _ _ heq)) (ih _ _ _ _ h)

theorem sourceLoop_fp_mono
    {step : String → Bool → RevState → Except PyErr RevState}
    (hstep : ∀ s il a b, step s il a = Except.ok b →
      ∀ x ∈ a.fullyProcessed, x ∈ b.fullyProcessed) :
    ∀ srcs total idx st st',
      sourceLoop step srcs total idx st = Except.ok st' →
      ∀ x ∈ st.fullyProcessed, x ∈ st'.fullyProcessed :=
  sourceLoop_rel (fun _ _ hx => hx) (fun hab hbc x hx => hbc x (hab x hx))
    (fun _ _ hx => hx) hstep

/-- Every source walked by the driver ends fully processed (no depth limit). -/

theorem sourceLoop_complete {g : Graph} {tg : Bool} {llm : String → String} {fuel : Nat} :
    ∀ srcs total idx st st',
      sourceLoop (fun s isLast st0 => revRec g none tg llm fuel s "" isLast 0 st0)
        srcs total idx st = Except.ok st' →
      ∀ s ∈ srcs, s ∈ st'.fullyProcessed := by
  intro srcs
  induction srcs with
  | nil =>
    intro total idx st st' h s hs
    cases hs
  | cons c rest ih =>
    intro total idx st st' h s hs
    simp only [sourceLoop] at h
    split at h
    · simp at h
    · rename_i st1 heq
      rcases List.mem_cons.mp hs with rfl | hs
      · rcases revRec_complete g tg llm fuel s _ _ _ _ _ heq with hfp | hv
        · exact sourceLoop_fp_mono
            (fun _ _ _ _ hq => (revRec_basic g none tg llm fuel _ _ _ _ _ _ hq).2.1)
            _ _ _ _ _ h s hfp
        · exact absurd hv (List.not_mem_nil s)
      · exact ih _ _ _ _ h s hs

/-- The closure invariant, with empty path, survives the whole driver loop. -/

theorem sourceLoop_rinvz {g : Graph} {tg : Bool} {llm : String → String} {fuel : Nat} :
    ∀ srcs total idx st st',
      sourceLoop (fun s isLast st0 => revRec g none tg llm fuel s "" isLast 0 st0)
        srcs total idx st = Except.ok st' →
      RInvZ g st → RInvZ g st' := by
  intro srcs
  induction srcs with
  | nil =>
    intro total idx st st' h hz
    simp only [sourceLoop] at h
    cases h
    exact hz
  | cons c rest ih =>
    intro total idx st st' h hz
    simp only [sourceLoop] at h
    split at h
    · simp at h
    · rename_i st1 heq
      have ha : RInv g { st with visited := [] } :=
        fun m hm c' hc => Or.inl (hz m hm c' hc)
      have h1 : RInv g st1 := revRec_rinv g tg llm fuel _ _ _ _ _ _ heq ha
      have hv1 : st1.visited = ([] : List String) :=
        (revRec_basic g none tg llm fuel _ _ _ _ _ _ heq).1
      have hz1 : RInvZ g st1 := by
        intro m hm c' hc
        rcases h1 m hm c' hc with hx | hx
        · exact hx
        · rw [hv1] at hx
          exact absurd hx (List.not_mem_nil c')
      exact ih _ _ _ _ h hz1

/-- Everything the driver loop adds to `fully_processed` is reachable from
one of the walked sources. -/

theorem sourceLoop_sound {g : Graph} {md : Option Nat} {tg : Bool}
    {llm : String → String} {fuel : Nat} :
    ∀ srcs total idx st st',
      sourceLoop (fun s isLast st0 => revRec g md tg llm fuel s "" isLast 0 st0)
        srcs total idx st = Except.ok st' →
      ∀ x ∈ st'.fullyProcessed,
        x ∈ st.fullyProcessed ∨ ∃ s ∈ srcs, g.Reaches s x := by
  intro srcs
  induction srcs with
  | nil =>
    intro total idx st st' h x hx
    simp only [sourceLoop] at h
    cases h
    exact Or.inl hx
  | cons c rest ih =>
    intro total idx st st' h x hx
    simp only [sourceLoop] at h
    split at h
    · simp at h
    · rename_i st1 heq
      rcases ih _ _ _ _ h x hx with hx1 | ⟨s, hs, hr⟩
      · rcases revRec_sound g md tg llm fuel _ _ _ _ _ _ heq x hx1 with hx2 | hr
        · exact Or.inl hx2
        · exact Or.inr ⟨c, List.mem_cons_self c rest, hr⟩
      · exact Or.inr ⟨s, List.mem_cons.mpr (Or.inr hs), hr⟩

/-- Order/fully-processed agreement and duplicate-freeness survive the
driver loop. -/

theorem sourceLoop_ofn {g : Graph} {md : Option Nat} {tg : Bool}
    {llm : String → String} {fuel : Nat} :
    ∀ srcs total idx st st',
      sourceLoop (fun s isLast st0 => revRec g md tg llm fuel s "" isLast 0 st0)
        srcs total idx st = Except.ok st' →
      (OrderFP st ∧ st.order.Nodup) → (OrderFP st' ∧ st'.order.Nodup) :=
  sourceLoop_rel (fun _ hx => hx) (fun hab hbc hx => hbc (hab hx))
    (fun _ hx => hx)
    (fun _ _ _ _ hq => revRec_ofn g md tg llm fuel _ _ _ _ _ _ hq)

/-- The generated-code accumulator invariant survives the driver loop. -/

theorem sourceLoop_genacc {g : Graph} {md : Option Nat} {llm : String → String}
    {fuel : Nat} :
    ∀ srcs total idx st st',
      sourceLoop (fun s isLast st0 => revRec g md true llm fuel s "" isLast 0 st0)
        srcs total idx st = Except.ok st' →
      GenAcc g llm st → GenAcc g llm st' :=
  sourceLoop_rel (fun _ hx => hx) (fun hab hbc hx => hbc (hab hx))
    (fun _ hx => hx)
    (fun _ _ _ _ hq => revRec_genacc g md llm fuel _ _ _ _ _ _ hq)

/-- The post-order property survives the driver loop on an acyclic graph. -/

theorem sourceLoop_post {g : Graph} {tg : Bool} {llm : String → String} {fuel : Nat}
    (hacyc : g.Acyclic) :
    ∀ srcs total idx st st',
      sourceLoop (fun s isLast st0 => revRec g none tg llm fuel s "" isLast 0 st0)
        srcs total idx st = Except.ok st' →
      OrderFP st → st.order.Nodup → PostO g st.order →
      OrderFP st' ∧ st'.order.Nodup ∧ PostO g st'.order := by
  intro srcs
  induction srcs with
  | nil =>
    intro total idx st st' h hofp hnd hpo
    simp only [sourceLoop] at h
    cases h
    exact ⟨hofp, hnd, hpo⟩
  | cons c rest ih =>
    intro total idx st st' h hofp hnd hpo
    simp only [sourceLoop] at h
    split at h
    · simp at h
    · rename_i st1 heq
      have hofn1 := revRec_ofn g none tg llm fuel _ _ _ _ _ _ heq ⟨hofp, hnd⟩
      have hpo1 := revRec_post g tg llm hacyc fuel _ _ _ _ _ _ heq
        (fun v hv => absurd hv (List.not_mem_nil v)) hofp hnd hpo
      exact ih _ _ _ _ h hofn1.1 hofn1.2 hpo1

/-- Reachability closure: a successor-closed `fully_processed` set containing
a node contains everything it reaches. -/

theorem rinvz_closure {g : Graph} {st : RevState} (hz : RInvZ g st)
    {s x : String} (hs : s ∈ st.fullyProcessed) (hr : g.Reaches s x) :
    x ∈ st.fullyProcessed := by
  induction hr with
  | refl => exact hs
  | tail hab hbc ih => exact hz _ ih _ hbc

/-- The driver loop cannot exhaust its recursion budget when the fuel
exceeds the number of graph nodes. -/

theorem sourceLoop_nf {g : Graph} {md : Option Nat} {tg : Bool}
    {llm : String → String} {fuel : Nat} (hwf : g.WF)
    (hfu : unvis g [] < fuel) :
    ∀ srcs total idx st,
      sourceLoop (fun s isLast st0 => revRec g md tg llm fuel s "" isLast 0 st0)
        srcs total idx st ≠ Except.error PyErr.recursionError := by
  intro srcs
  induction srcs with
  | nil =>
    intro total idx st h
    simp only [sourceLoop] at h
    simp at h
  | cons c rest ih =>
    intro total idx st h
    simp only [sourceLoop] at h
    split at h
    · rename_i e heq
      injection h with h'
      subst h'
      exact revRec_nf g md tg llm hwf fuel _ _ _ _ _ hfu heq
    · rename_i st1 heq
      exact ih _ _ _ h

/-! ### Forward traversal: visited growth, expansion trace, termination -/

theorem printDagLoop_mono
    {step : String → String → Bool → List String → Nat → Except PyErr FwdOut}
    (hstep : ∀ c p il v d out, step c p il v d = Except.ok out → ∀ x ∈ v, x ∈ out.visited) :
    ∀ children cnt i p v d out,
      printDagLoop step children cnt i p v d = Except.ok out → ∀ x ∈ v, x ∈ out.visited := by
  intro children
  induction children with
  | nil =>
    intro cnt i p v d out h x hx
    simp only [printDagLoop] at h
    cases h
    exact hx
  | cons c rest ih =>
    intro cnt i p v d out h x hx
    simp only [printDagLoop] at h
    split at h
    · split at h
      · simp at h
      · rename_i r hrec
        cases h
        exact ih _ _ _ _ _ r hrec x hx
    · split at h
      · simp at h
      · rename_i r1 heq
        split at h
        · simp at h
        · rename_i r2 hrec
          cases h
          exact ih _ _ _ _ _ r2 hrec x (hstep _ _ _ _ _ _ heq x hx)

/-- `print_dag` only ever adds to the shared `visited` set. -/

theorem printDag_mono (g : Graph) (md : Option Nat) :
    ∀ fuel nodeId pfx il v d out,
      printDag g md fuel nodeId pfx il v d = Except.ok out → ∀ x ∈ v, x ∈ out.visited := by
  intro fuel
  induction fuel with
  | zero =>
    intro nodeId pfx il v d out h
    simp only [printDag] at h
    simp at h
  | succ f ih =>
    intro nodeId pfx il v d out h x hx
    simp only [printDag] at h
    split at h
    · simp at h
    · rename_i lbl hlbl
      split at h
      · cases h
        exact mem_insertSet.mpr (Or.inr hx)
      · split at h
        · simp at h
        · rename_i r hloop
          cases h
          exact printDagLoop_mono (fun c p il' v' d' out' hq => ih c p il' v' d' out' hq)
            _ _ _ _ _ _ _ hloop x (mem_insertSet.mpr (Or.inr hx))

theorem fwdTrace_append {v : List String} {r1 r2 : FwdOut}
    (h1 : FwdTrace v r1) (h2 : FwdTrace r1.visited r2) {lines : List String} :
    FwdTrace v ⟨lines, r2.visited, r1.trace ++ r2.trace⟩ := by
  obtain ⟨hn1, hd1, hc1⟩ := h1
  obtain ⟨hn2, hd2, hc2⟩ := h2
  refine ⟨?_, ?_, ?_⟩
  · rw [List.nodup_append]
    exact ⟨hn1, hn2, fun x hx1 hx2 => hd2 x hx2 ((hc1 x).mpr (Or.inr hx1))⟩
  · intro x hx
    rw [List.mem_append] at hx
    rcases hx with hx | hx
    · exact hd1 x hx
    · exact fun hv => hd2 x hx ((hc1 x).mpr (Or.inl hv))
  · intro x
    rw [List.mem_append]
    constructor
    · intro hx
      rcases (hc2 x).mp hx with hx | hx
      · rcases (hc1 x).mp hx with hx | hx
        · exact Or.inl hx
        · exact Or.inr (Or.inl hx)
      · exact Or.inr (Or.inr hx)
    · rintro (hx | hx | hx)
      · exact (hc2 x).mpr (Or.inl ((hc1 x).mpr (Or.inl hx)))
      · exact (hc2 x).mpr (Or.inl ((hc1 x).mpr (Or.inr hx)))
      · exact (hc2 x).mpr (Or.inr hx)

theorem printDagLoop_trace
    {step : String → String → Bool → List String → Nat → Except PyErr FwdOut}
    (hstep : ∀ c p il v d out, step c p il v d = Except.ok out → c ∉ v → FwdTrace v out) :
    ∀ children cnt i p v d out,
      printDagLoop step children cnt i p v d = Except.ok out → FwdTrace v out := by
  intro children
  induction children with
  | nil =>
    intro cnt i p v d out h
    simp only [printDagLoop] at h
    cases h
    refine ⟨List.nodup_nil, fun x hx => absurd hx (List.not_mem_nil x), fun x => ?_⟩
    constructor
    · exact Or.inl
    · rintro (hx | hx)
      · exact hx
      · exact absurd hx (List.not_mem_nil x)
  | cons c rest ih =>
    intro cnt i p v d out h
    simp only [printDagLoop] at h
    split at h
    · split at h
      · simp at h
      · rename_i r hrec
        cases h
        exact ih _ _ _ _ _ r hrec
    · rename_i hcv
      split at h
      · simp at h
      · rename_i r1 heq
        split at h
        · simp at h
        · rename_i r2 hrec
          cases h
          exact fwdTrace_append (hstep _ _ _ _ _ _ heq hcv) (ih _ _ _ _ _ r2 hrec)

/-- A forward call on an unvisited node enters each node at most once: the
trace (headed by the entered node) is duplicate-free, disjoint from the
entry `visited` set, and the final set is the union. -/

theorem printDag_trace (g : Graph) (md : Option Nat) :
    ∀ fuel nodeId pfx il v d out,
      printDag g md fuel nodeId pfx il v d = Except.ok out → nodeId ∉ v →
      FwdTrace v out := by
  intro fuel
  induction fuel with
  | zero =>
    intro nodeId pfx il v d out h
    simp only [printDag] at h
    simp at h
  | succ f ih =>
    intro nodeId pfx il v d out h hnv
    simp only [printDag] at h
    split at h
    · simp at h
    · rename_i lbl hlbl
      split at h
      · cases h
        refine ⟨List.nodup_singleton _, ?_, fun x => ?_⟩
        · intro x hx
          rw [List.mem_singleton] at hx
          subst hx
          exact hnv
        · rw [mem_insertSet, List.mem_singleton, or_comm]
      · split at h
        · simp at h
        · rename_i r hloop
          cases h
          have hr : FwdTrace (insertSet nodeId v) r :=
            printDagLoop_trace (fun c p il' v' d' out' hq hc => ih c p il' v' d' out' hq hc)
              _ _ _ _ _ _ _ hloop
          obtain ⟨hn, hd, hc⟩ := hr
          refine ⟨?_, ?_, ?_⟩
          · exact List.nodup_cons.mpr ⟨fun hx => hd nodeId hx self_mem_insertSet, hn⟩
          · intro x hx
            rcases List.mem_cons.mp hx with rfl | hx
            · exact hnv
            · exact fun hv => hd x hx (mem_insertSet.mpr (Or.inr hv))
          · intro x
            rw [List.mem_cons]
            rw [hc x, mem_insertSet]
            constructor
            · rintro ((rfl | hx) | hx)
              · exact Or.inr (Or.inl rfl)
              · exact Or.inl hx
              · exact Or.inr (Or.inr hx)
            · rintro (hx | rfl | hx)
              · exact Or.inl (Or.inr hx)
              · exact Or.inl (Or.inl rfl)
              · exact Or.inr hx

theorem forwardNodeLabel_not_recErr {g : Graph} {x newPfx : String} :
    forwardNodeLabel g x newPfx ≠ Except.error PyErr.recursionError := by
  unfold forwardNodeLabel
  split
  · rename_i e heq
    intro h
    injection h with h'
    subst h'
    exact nodeAttrs_not_recErr heq
  · dsimp only
    split
    · rename_i e heq
      intro h
      injection h with h'
      subst h'
      exact pyGetAttr_not_recErr heq
    · simp

theorem unvis_le_of_subset {g : Graph} {v1 v2 : List String}
    (hsub : ∀ x ∈ v1, x ∈ v2) : unvis g v2 ≤ unvis g v1 := by
  unfold unvis
  refine filter_length_le_of_imp ?_
  intro x hx
  simp only [decide_eq_true_eq] at hx ⊢
  exact fun hmem => hx (hsub x hmem)

theorem printDagLoop_nf {g : Graph} {md : Option Nat} {f : Nat}
    (hstep : ∀ c p il v d, c ∉ v → unvis g v < f →
      printDag g md f c p il v d ≠ Except.error PyErr.recursionError) :
    ∀ children cnt i p v d, unvis g v < f →
      printDagLoop (printDag g md f) children cnt i p v d ≠
        Except.error PyErr.recursionError := by
  intro children
  induction children with
  | nil =>
    intro cnt i p v d hf h
    simp only [printDagLoop] at h
    simp at h
  | cons c rest ih =>
    intro cnt i p v d hf h
    simp only [printDagLoop] at h
    split at h
    · split at h
      · rename_i e hrec
        injection h with h'
        subst h'
        exact ih _ _ _ _ _ hf hrec
      · simp at h
    · rename_i hcv
      split at h
      · rename_i e heq
        injection h with h'
        subst h'
        exact hstep _ _ _ _ _ hcv hf heq
      · rename_i r1 heq
        split at h
        · rename_i e hrec
          injection h with h'
          subst h'
          refine ih _ _ _ _ _ ?_ hrec
          calc unvis g r1.visited
              ≤ unvis g v := unvis_le_of_subset (printDag_mono g md f _ _ _ _ _ _ heq)
            _ < f := hf
        · simp at h

/-- `print_dag` never exhausts recursion fuel exceeding the number of
not-yet-visited nodes: every frame is entered on an unvisited node, adds it
to the monotone `visited` set, and recursion is bounded by the node count. -/

theorem printDag_nf (g : Graph) (md : Option Nat) (hwf : g.WF) :
    ∀ fuel nodeId pfx il v d, nodeId ∉ v → unvis g v < fuel →
      printDag g md fuel nodeId pfx il v d ≠ Except.error PyErr.recursionError := by
  intro fuel
  induction fuel with
  | zero =>
    intro nodeId pfx il v d hnv hf
    exact absurd hf (Nat.not_lt_zero _)
  | succ f ih =>
    intro nodeId pfx il v d hnv hf h
    simp only [printDag] at h
    split at h
    · rename_i e heq
      injection h with h'
      subst h'
      exact forwardNodeLabel_not_recErr heq
    · rename_i lbl hlbl
      split at h
      · simp at h
      · by_cases hmem : nodeId ∈ g.nodeIds
        · have hf1 : unvis g (insertSet nodeId v) < f := by
            have hlt := unvis_strict hmem hnv
            omega
          split at h
          · rename_i e hrec
            injection h with h'
            subst h'
            exact printDagLoop_nf (fun c p' il' v' d' hc hfx => ih c p' il' v' d' hc hfx)
              _ _ _ _ _ _ hf1 hrec
          · simp at h
        · rw [successors_eq_nil_of_not_mem hwf hmem] at h
          simp only [printDagLoop] at h
          simp at h

/-! ### Behaviour at `max_depth = 0` -/

/-- With `max_depth = 0` every reverse call returns immediately with the
state unchanged: the node is added to `visited`, the depth guard fires at
`depth = 0`, and the node is removed again before anything is printed. -/

theorem revRec_depth0 (g : Graph) (tg : Bool) (llm : String → String)
    (f : Nat) (nodeId pfx : String) (il : Bool) (st : RevState) :
    revRec g (some 0) tg llm (f + 1) nodeId pfx il 0 st = Except.ok st := by
  simp only [revRec]
  split
  · rfl
  · split
    · rfl
    · rename_i h1 h2
      rw [if_pos (show depthHit (some 0) 0 = true from rfl)]
      rw [removeSet_insertSet h2]

/-- The driver loop at `max_depth = 0` leaves the state unchanged. -/

theorem sourceLoop_depth0 (g : Graph) (tg : Bool) (llm : String → String) (f : Nat) :
    ∀ srcs total idx st, st.visited = [] →
      sourceLoop (fun s isLast st0 => revRec g (some 0) tg llm (f + 1) s "" isLast 0 st0)
        srcs total idx st = Except.ok st := by
  intro srcs
  induction srcs with
  | nil =>
    intro total idx st hv
    simp only [sourceLoop]
  | cons c rest ih =>
    intro total idx st hv
    have h0 : ({ st with visited := [] } : RevState) = st := by
      rw [← hv]
    simp only [sourceLoop]
    rw [revRec_depth0]
    dsimp only
    rw [h0]
    exact ih _ _ _ hv

theorem gABC_step_iff {a b : String} : gABC.edgeStep a b ↔
    (a = "A" ∧ b = "B") ∨ (a = "A" ∧ b = "C") ∨ (a = "B" ∧ b = "C") := by
  simp only [Graph.edgeStep, Graph.successors, gABC, List.mem_map, List.mem_filter]
  constructor
  · rintro ⟨e, ⟨he, hbeq⟩, rfl⟩
    have ha : e.1 = a := by simpa using hbeq
    subst ha
    simp only [List.mem_cons, List.not_mem_nil, or_false] at he
    rcases he with h | h | h <;> rw [h] <;> decide
  · rintro (⟨rfl, rfl⟩ | ⟨rfl, rfl⟩ | ⟨rfl, rfl⟩)
    · exact ⟨("A", "B"), ⟨by simp, by simp⟩, rfl⟩
    · exact ⟨("A", "C"), ⟨by simp, by simp⟩, rfl⟩
    · exact ⟨("B", "C"), ⟨by simp, by simp⟩, rfl⟩

theorem gABC_step_rank {a b : String} (h : gABC.edgeStep a b) :
    rankABC a < rankABC b := by
  rcases gABC_step_iff.mp h with ⟨ha, hb⟩ | ⟨ha, hb⟩ | ⟨ha, hb⟩ <;>
    subst ha <;> subst hb <;> decide

theorem gABC_reaches_rank {a b : String} (h : gABC.Reaches a b) :
    rankABC a ≤ rankABC b := by
  induction h with
  | refl => exact Nat.le_refl _
  | tail hab hbc ih => exact Nat.le_trans ih (Nat.le_of_lt (gABC_step_rank hbc))

theorem gABC_acyclic : gABC.Acyclic := by
  intro a b hstep hreach
  have h1 := gABC_step_rank hstep
  have h2 := gABC_reaches_rank hreach
  omega

theorem unvis_nil (g : Graph) : unvis g [] = g.nodeIds.length := by
  unfold unvis
  simp

/-! ### The claims -/

/-- C1: for every finite graph, a completed reverse traversal with no depth
limit emits each node reachable from some in-degree-0 source exactly once
(the emission order lists exactly the reachable nodes), and no node is ever
emitted twice (the order is duplicate-free), even when a node is reachable
from several sources or via several paths: the shared `fully_processed` set
makes any re-entry return without re-emission. -/

theorem claim_C1 (g : Graph) (tg : Bool) (llm : String → String) (fuel : Nat)
    (st : RevState) (art : Option String)
    (h : printDagInReverse g none tg llm fuel = Except.ok (st, art)) :
    st.order.Nodup ∧ ∀ n, n ∈ st.order ↔ ∃ s ∈ g.sources, g.Reaches s n := by
  unfold printDagInReverse at h
  dsimp only at h
  split at h
  · simp at h
  · rename_i stF hloop
    have hofn := sourceLoop_ofn _ _ _ _ _ hloop ⟨fun x => Iff.rfl, List.nodup_nil⟩
    have hcompl := sourceLoop_complete _ _ _ _ _ hloop
    have hz : RInvZ g stF :=
      sourceLoop_rinvz _ _ _ _ _ hloop (fun m hm => absurd hm (List.not_mem_nil m))
    have hsound := sourceLoop_sound _ _ _ _ _ hloop
    have hmain : stF.order.Nodup ∧
        ∀ n, n ∈ stF.order ↔ ∃ s ∈ g.sources, g.Reaches s n := by
      refine ⟨hofn.2, fun n => ⟨fun hn => ?_, fun hr => ?_⟩⟩
      · rcases hsound n ((hofn.1 n).mp hn) with hx | hx
        · exact absurd hx (List.not_mem_nil n)
        · exact hx
      · obtain ⟨s, hs, hr⟩ := hr
        exact (hofn.1 n).mpr (rinvz_closure hz (hcompl s hs) hr)
    split at h
    · cases h
      exact hmain
    · cases h
      exact hmain

/-- C2: for every acyclic graph, a completed reverse traversal with no depth
limit emits every node strictly after each of its successors (`[c, n]` is a
sublist of the emission order for every edge `n → c`: a true topological
post-order over the successor relation); concretely, on the graph with nodes
A, B, C, edges A→B, A→C, B→C and single source A, the emission order is
exactly `[C, B, A]` (with C emitted once despite being reachable on two
paths). -/

theorem claim_C2 :
    (∀ (g : Graph) (tg : Bool) (llm : String → String) (fuel : Nat)
        (st : RevState) (art : Option String), g.Acyclic →
        printDagInReverse g none tg llm fuel = Except.ok (st, art) →
        PostO g st.order) ∧
    printDagInReverse gABC none false llm0 10 =
      Except.ok (runRev gABC none false llm0 10, none) ∧
    (runRev gABC none false llm0 10).order = ["C", "B", "A"] := by
  refine ⟨?_, rfl, rfl⟩
  intro g tg llm fuel st art hacyc h
  unfold printDagInReverse at h
  dsimp only at h
  split at h
  · simp at h
  · rename_i stF hloop
    have hpost := sourceLoop_post hacyc _ _ _ _ _ hloop (fun x => Iff.rfl)
      List.nodup_nil (fun n c hn => absurd hn (List.not_mem_nil n))
    split at h
    · cases h
      exact hpost.2.2
    · cases h
      exact hpost.2.2

/-- C3 (code bug): with a node whose attribute dictionary is missing the
expected keys, both labelers raise `AttributeError` instead of substituting
defaults: `node_attrs.get("content", "")` returns the string default, and
the chained `.get("key", "")` has no receiver method on a string.  All other
missing keys (node_type, dynamic_parts, extracted_parts, input_variables)
are indeed defaulted to blanks, as the `gPartial` runs show. -/

theorem claim_C3 :
    getNodeLabel gMissing "n" =
      Except.error (PyErr.attributeError "str object has no attribute get") ∧
    forwardNodeLabel gMissing "n" "    " =
      Except.error (PyErr.attributeError "str object has no attribute get") ∧
    getNodeLabel gPartial "p" =
      Except.ok "[] [node_id: p] [dynamic_parts: ] [extracted_parts: ] [input_variables: ] [K]" ∧
    forwardNodeLabel gPartial "p" "    " =
      Except.ok "[] [node_id: p]\n        [dynamic_parts: []]\n        [extracted_parts: []]\n        [K]" :=
  ⟨rfl, rfl, rfl, rfl⟩

/-- C4 (amended): for the graph consisting solely of the cycle A→B→C→A there
is no in-degree-0 node, so the reverse traversal terminates and emits none
of the three; when the same cycle is reached from a source S, the traversal
terminates, cuts the cycle silently at the re-entry of A, and emits each of
the three exactly once, in order C, B, A (followed by S); in general the
traversal never exhausts a recursion budget exceeding the node count. -/

theorem claim_C4 :
    printDagInReverse gCycle none false llm0 10 =
      Except.ok ({ visited := [], fullyProcessed := [], lines := [], order := [], generatedCode := "" }, none) ∧
    printDagInReverse gSCycle none false llm0 10 =
      Except.ok (runRev gSCycle none false llm0 10, none) ∧
    (runRev gSCycle none false llm0 10).order = ["C", "B", "A", "S"] ∧
    (runRev gSCycle none false llm0 10).order.Nodup ∧
    (∀ (g : Graph) (md : Option Nat) (tg : Bool) (llm : String → String) (fuel : Nat),
      g.WF → g.nodeIds.length < fuel →
      printDagInReverse g md tg llm fuel ≠ Except.error PyErr.recursionError) := by
  refine ⟨rfl, rfl, rfl, by decide, ?_⟩
  intro g md tg llm fuel hwf hfu h
  unfold printDagInReverse at h
  dsimp only at h
  split at h
  · rename_i e heq
    injection h with h'
    subst h'
    refine sourceLoop_nf hwf ?_ _ _ _ _ heq
    rw [unvis_nil]
    exact hfu
  · split at h <;> simp at h

/-- C4 counterexample: the claim says a graph containing the cycle A→B→C→A
has exactly two of the three emitted; on the minimal such graph the reverse
traversal emits zero of the three (there is no in-degree-0 source, so the
walk never starts). -/

theorem claim_C4_counterexample :
    printDagInReverse gCycle none false llm0 10 =
      Except.ok ({ visited := [], fullyProcessed := [], lines := [], order := [], generatedCode := "" }, none) ∧
    ((runRev gCycle none false llm0 10).order.filter
        (fun n => n == "A" || n == "B" || n == "C")).length = 0 :=
  ⟨rfl, rfl⟩

/-- C5: the forward traversal's `visited` set only grows and is never
reverted on return; a call on an unvisited start node enters (labels and
expands) each node at most once in the whole walk (its entry trace is
duplicate-free and disjoint from the entry set, and the final set is the
union); and every edge into an already-visited child renders exactly the
`(Already visited) [node_id: ...]` line without recursing into that child. -/

theorem claim_C5 :
    (∀ (g : Graph) (md : Option Nat) (fuel : Nat) (nodeId pfx : String) (il : Bool)
        (visited : List String) (d : Nat) (out : FwdOut),
      printDag g md fuel nodeId pfx il visited d = Except.ok out →
      (∀ x ∈ visited, x ∈ out.visited) ∧
      (nodeId ∉ visited →
        out.trace.Nodup ∧ (∀ x ∈ out.trace, x ∉ visited) ∧
        (∀ x, x ∈ out.visited ↔ x ∈ visited ∨ x ∈ out.trace))) ∧
    (∀ (step : String → String → Bool → List String → Nat → Except PyErr FwdOut)
        (children : List String) (c : String) (cnt i : Nat) (newPfx : String)
        (visited : List String) (d : Nat), c ∈ visited →
      printDagLoop step (c :: children) cnt i newPfx visited d =
        (printDagLoop step children cnt (i + 1) newPfx visited d).map
          (fun r => ⟨(newPfx ++ (if (i == cnt - 1 : Bool) then "└── " else "├── ") ++
            "(Already visited) [node_id: " ++ c ++ "]") :: r.lines, r.visited, r.trace⟩)) := by
  constructor
  · intro g md fuel nodeId pfx il visited d out h
    exact ⟨printDag_mono g md fuel nodeId pfx il visited d out h,
      fun hnv => printDag_trace g md fuel nodeId pfx il visited d out h hnv⟩
  · intro step children c cnt i newPfx visited d hc
    simp only [printDagLoop, if_pos hc]
    cases hrec : printDagLoop step children cnt (i + 1) newPfx visited d <;>
      simp [Except.map]

/-- C6: a node reached with the depth limit hit (`depth ≥ max_depth`, in
particular `max_depth = 0` at the start node) is still labeled — exactly one
line is printed — but its successors are not expanded: the call returns
right after adding the node to `visited`, with the entry trace containing
only that node. -/

theorem claim_C6 (g : Graph) (m fuel : Nat) (nodeId pfx : String) (il : Bool)
    (visited : List String) (d : Nat) (lbl : String) (hd : m ≤ d)
    (hlbl : forwardNodeLabel g nodeId (pfx ++ (if il then "    " else "│   ")) =
      Except.ok lbl) :
    printDag g (some m) (fuel + 1) nodeId pfx il visited d =
      Except.ok ⟨[pfx ++ (if il then "└── " else "├── ") ++ lbl],
        insertSet nodeId visited, [nodeId]⟩ := by
  simp only [printDag]
  rw [hlbl]
  dsimp only
  rw [if_pos (show depthHit (some m) d = true by simp [depthHit, hd])]

/-- C7: when code generation is requested, a completed reverse run invokes
the synthesis step at most once per node (the emission order is
duplicate-free and each emitted node's `generate_code` succeeded), the
accumulated text is exactly the per-node blocks concatenated in emission
order, each block followed by the blank-line separator `"\n\n"`, and the
artifact written once at the end is exactly that accumulated text. -/

theorem claim_C7 (g : Graph) (md : Option Nat) (llm : String → String) (fuel : Nat)
    (st : RevState) (art : Option String)
    (h : printDagInReverse g md true llm fuel = Except.ok (st, art)) :
    st.order.Nodup ∧
    (∀ x ∈ st.order, ∃ c, generateCode g llm x = Except.ok c) ∧
    st.generatedCode = String.join (st.order.map (codeBlockOf g llm)) ∧
    art = some st.generatedCode := by
  unfold printDagInReverse at h
  dsimp only at h
  split at h
  · simp at h
  · rename_i stF hloop
    have hofn := sourceLoop_ofn _ _ _ _ _ hloop ⟨fun x => Iff.rfl, List.nodup_nil⟩
    have hgen := sourceLoop_genacc _ _ _ _ _ hloop
      ⟨fun x hx => absurd hx (List.not_mem_nil x), rfl⟩
    rw [if_pos rfl] at h
    cases h
    exact ⟨hofn.2, hgen.1, hgen.2, rfl⟩

/-- C8: the forward traversal terminates on every well-formed finite graph,
cyclic or not: the global `visited` set only grows, each recursive call is
made only on an unvisited node, so a recursion budget exceeding the number
of nodes is never exhausted. -/

theorem claim_C8 (g : Graph) (md : Option Nat) (fuel : Nat) (nodeId pfx : String)
    (il : Bool) (d : Nat) (hwf : g.WF) (hfuel : g.nodeIds.length < fuel) :
    printDag g md fuel nodeId pfx il [] d ≠ Except.error PyErr.recursionError := by
  refine printDag_nf g md hwf fuel nodeId pfx il [] d (List.not_mem_nil nodeId) ?_
  rw [unvis_nil]
  exact hfuel

/-- C9: calling the reverse traversal with `max_depth = 0` emits no node and
invokes no synthesis step: the depth check fires at entry, removes the node
from `visited` and returns before anything is labeled, so the run returns
the untouched empty state (plus the confirmation line when code generation
is requested) and the written artifact is the empty string — unlike the
forward traversal, which still labels the start node at `max_depth = 0`. -/

theorem claim_C9 (g : Graph) (tg : Bool) (llm : String → String) (fuel : Nat)
    (hfuel : 1 ≤ fuel) :
    printDagInReverse g (some 0) tg llm fuel =
      Except.ok ({ visited := [], fullyProcessed := [],
                   lines := if tg then [savedMsg] else [], order := [], generatedCode := "" },
        if tg then some "" else none) ∧
    (printDag gOne (some 0) 2 "A" "" true [] 0).map (fun r => (r.lines.length, r.trace)) =
      Except.ok (1, ["A"]) := by
  constructor
  · cases fuel with
    | zero => omega
    | succ f =>
      unfold printDagInReverse
      dsimp only
      rw [sourceLoop_depth0 g tg llm f _ _ _ _ rfl]
      dsimp only
      cases tg <;> rfl
  · rfl

/-- C10: the reverse traversal never emits a node unreachable from every
in-degree-0 node (walks start only at sources); for a graph in which every
node has an incoming edge — such as a single directed cycle — the source
list is empty, nothing is emitted, and with code generation requested the
written artifact is the empty string. -/

theorem claim_C10 :
    (∀ (g : Graph) (md : Option Nat) (tg : Bool) (llm : String → String) (fuel : Nat)
        (st : RevState) (art : Option String),
      printDagInReverse g md tg llm fuel = Except.ok (st, art) →
      ∀ n ∈ st.order, ∃ s ∈ g.sources, g.Reaches s n) ∧
    (∀ (g : Graph) (md : Option Nat) (tg : Bool) (llm : String → String) (fuel : Nat),
      (∀ n ∈ g.nodeIds, g.inDegree n ≠ 0) →
      printDagInReverse g md tg llm fuel =
        Except.ok ({ visited := [], fullyProcessed := [],
                     lines := if tg then [savedMsg] else [], order := [], generatedCode := "" },
          if tg then some "" else none)) ∧
    printDagInReverse gCycle none true llm0 10 =
      Except.ok ({ visited := [], fullyProcessed := [], lines := [savedMsg], order := [], generatedCode := "" },
        some "") := by
  refine ⟨?_, ?_, rfl⟩
  · intro g md tg llm fuel st art h n hn
    unfold printDagInReverse at h
    dsimp only at h
    split at h
    · simp at h
    · rename_i stF hloop
      have hofn := sourceLoop_ofn _ _ _ _ _ hloop ⟨fun x => Iff.rfl, List.nodup_nil⟩
      have hsound := sourceLoop_sound _ _ _ _ _ hloop
      have hmain : ∀ x ∈ stF.order, ∃ s ∈ g.sources, g.Reaches s x := by
        intro x hx
        rcases hsound x ((hofn.1 x).mp hx) with hy | hy
        · exact absurd hy (List.not_mem_nil x)
        · exact hy
      split at h
      · cases h
        exact hmain n hn
      · cases h
        exact hmain n hn
  · intro g md tg llm fuel hno
    have hsrc : g.sources = [] := by
      unfold Graph.sources
      refine List.filter_eq_nil_iff.mpr ?_
      intro n hn
      simpa using hno n hn
    unfold printDagInReverse
    dsimp only
    rw [hsrc]
    simp only [sourceLoop]
    cases tg <;> rfl

/-! ### Witnesses -/

/-- C1 witness: the two-source graph S1→T, S2→T, T→U runs to completion, and
the theorem yields a duplicate-free emission order covering exactly the
reachable nodes (T is shared by both sources and emitted once). -/

theorem claim_C1_witness :
    printDagInReverse gTwoSrc none false llm0 10 =
      Except.ok (runRev gTwoSrc none false llm0 10, runArt gTwoSrc none false llm0 10) ∧
    ((runRev gTwoSrc none false llm0 10).order.Nodup ∧
      ∀ n, n ∈ (runRev gTwoSrc none false llm0 10).order ↔
        ∃ s ∈ gTwoSrc.sources, gTwoSrc.Reaches s n) :=
  ⟨rfl, claim_C1 gTwoSrc false llm0 10 _ _ rfl⟩

/-- C2 witness: `gABC` is acyclic (rank certificate) and its completed run
satisfies the post-order property. -/

theorem claim_C2_witness :
    gABC.Acyclic ∧
    printDagInReverse gABC none false llm0 10 =
      Except.ok (runRev gABC none false llm0 10, runArt gABC none false llm0 10) ∧
    PostO gABC (runRev gABC none false llm0 10).order :=
  ⟨gABC_acyclic, rfl, claim_C2.1 gABC false llm0 10 _ _ gABC_acyclic rfl⟩

/-- C4 witness: the general termination conjunct applied to the well-formed
two-source graph with fuel 10 > 4 nodes. -/

theorem claim_C4_witness :
    gTwoSrc.WF ∧ gTwoSrc.nodeIds.length < 10 ∧
    printDagInReverse gTwoSrc none false llm0 10 ≠ Except.error PyErr.recursionError :=
  ⟨by decide, by decide, claim_C4.2.2.2.2 gTwoSrc none false llm0 10 (by decide) (by decide)⟩

/-- C5 witness: the forward walk of `gABC` from A, with an empty initial
visited set, instantiates the monotonicity/at-most-once conclusions, and the
already-visited rendering equation is instantiated at a child already in the
visited set. -/

theorem claim_C5_witness :
    (printDag gABC none 10 "A" "" true [] 0 =
      Except.ok (runFwd gABC none 10 "A" "" true [] 0) ∧
     ((∀ x ∈ ([] : List String), x ∈ (runFwd gABC none 10 "A" "" true [] 0).visited) ∧
      ("A" ∉ ([] : List String) →
        (runFwd gABC none 10 "A" "" true [] 0).trace.Nodup ∧
        (∀ x ∈ (runFwd gABC none 10 "A" "" true [] 0).trace, x ∉ ([] : List String)) ∧
        (∀ x, x ∈ (runFwd gABC none 10 "A" "" true [] 0).visited ↔
          x ∈ ([] : List String) ∨ x ∈ (runFwd gABC none 10 "A" "" true [] 0).trace)))) ∧
    ("C" ∈ (["C"] : List String) ∧
     printDagLoop (printDag gABC none 5) ("C" :: []) 1 0 "    " ["C"] 1 =
       (printDagLoop (printDag gABC none 5) [] 1 (0 + 1) "    " ["C"] 1).map
         (fun r => ⟨("    " ++ (if (0 == 1 - 1 : Bool) then "└── " else "├── ") ++
           "(Already visited) [node_id: " ++ "C" ++ "]") :: r.lines, r.visited, r.trace⟩)) :=
  ⟨⟨rfl, claim_C5.1 gABC none 10 "A" "" true [] 0 _ rfl⟩,
   ⟨by decide, claim_C5.2 (printDag gABC none 5) [] "C" 1 0 "    " ["C"] 1 (by decide)⟩⟩

/-- C6 witness: on the one-node graph, `max_depth = 0` at the start node
yields exactly the one label line, the node added to visited, and no
expansion. -/

theorem claim_C6_witness :
    (0 ≤ 0) ∧
    forwardNodeLabel gOne "A" ("" ++ (if true then "    " else "│   ")) =
      Except.ok (okStr (forwardNodeLabel gOne "A" ("" ++ (if true then "    " else "│   ")))) ∧
    printDag gOne (some 0) (1 + 1) "A" "" true [] 0 =
      Except.ok ⟨["" ++ (if true then "└── " else "├── ") ++
          okStr (forwardNodeLabel gOne "A" ("" ++ (if true then "    " else "│   ")))],
        insertSet "A" [], ["A"]⟩ :=
  ⟨Nat.le_refl 0, rfl, claim_C6 gOne 0 1 "A" "" true [] 0 _ (Nat.le_refl 0) rfl⟩

/-- C7 witness: the code-generation run on `gABC` completes, and the theorem
yields the at-most-once and concatenation conclusions for it. -/

theorem claim_C7_witness :
    printDagInReverse gABC none true llm0 20 =
      Except.ok (runRev gABC none true llm0 20, runArt gABC none true llm0 20) ∧
    ((runRev gABC none true llm0 20).order.Nodup ∧
     (∀ x ∈ (runRev gABC none true llm0 20).order,
        ∃ c, generateCode gABC llm0 x = Except.ok c) ∧
     (runRev gABC none true llm0 20).generatedCode =
       String.join ((runRev gABC none true llm0 20).order.map (codeBlockOf gABC llm0)) ∧
     runArt gABC none true llm0 20 = some (runRev gABC none true llm0 20).generatedCode) :=
  ⟨rfl, claim_C7 gABC none llm0 20 _ _ rfl⟩

/-- C8 witness: the forward traversal of the cyclic graph from A with fuel
10 > 3 nodes does not exhaust its recursion budget. -/

theorem claim_C8_witness :
    gCycle.WF ∧ gCycle.nodeIds.length < 10 ∧
    printDag gCycle none 10 "A" "" true [] 0 ≠ Except.error PyErr.recursionError :=
  ⟨by decide, by decide, claim_C8 gCycle none 10 "A" "" true 0 (by decide) (by decide)⟩

/-- C9 witness: the depth-0 reverse run of the two-source graph with code
generation requested emits nothing and writes the empty artifact, while the
forward traversal still labels its start node. -/

theorem claim_C9_witness :
    (1 ≤ 5) ∧
    (printDagInReverse gTwoSrc (some 0) true llm0 5 =
      Except.ok ({ visited := [], fullyProcessed := [],
                   lines := if true then [savedMsg] else [], order := [], generatedCode := "" },
        if true then some "" else none) ∧
     (printDag gOne (some 0) 2 "A" "" true [] 0).map (fun r => (r.lines.length, r.trace)) =
       Except.ok (1, ["A"])) :=
  ⟨by decide, claim_C9 gTwoSrc true llm0 5 (by decide)⟩

/-- C10 witness: the soundness conjunct applied to the source-plus-cycle
run, and the empty-source conjunct applied to the pure cycle (every node has
in-degree 1). -/

theorem claim_C10_witness :
    printDagInReverse gSCycle none false llm0 10 =
      Except.ok (runRev gSCycle none false llm0 10, runArt gSCycle none false llm0 10) ∧
    (∀ n ∈ (runRev gSCycle none false llm0 10).order,
      ∃ s ∈ gSCycle.sources, gSCycle.Reaches s n) ∧
    (∀ n ∈ gCycle.nodeIds, gCycle.inDegree n ≠ 0) ∧
    printDagInReverse gCycle (some 3) false llm0 10 =
      Except.ok ({ visited := [], fullyProcessed := [],
                   lines := if false then [savedMsg] else [], order := [], generatedCode := "" },
        if false then some "" else none) :=
  ⟨rfl, claim_C10.1 gSCycle none false llm0 10 _ _ rfl, by decide,
   claim_C10.2.1 gCycle (some 3) false llm0 10 (by decide)⟩

